import Mathlib

/-!
Verification of the tile-mode partitioning core of `wl-kbptr`
(`src/mode_tile.c`): rectangle algebra, exclusive-region decomposition,
grid sizing, and the label-index ↔ cell-rectangle mappings.

Machine `int`/`int32_t` values are modelled as `Int`; C integer division
and remainder (truncating toward zero) are `Int.tdiv` / `Int.tmod`.
All quantities the algorithms divide by are positive in the modelled
paths, so no overflow or truncation subtleties arise at the sizes the
claims concern.
-/

set_option maxRecDepth 200000

namespace WlKbptr

/-- Axis-aligned integer rectangle `{x, y, w, h}` (C `struct rect`,
all fields `int32_t`). -/
structure Rect where
  x : Int
  y : Int
  w : Int
  h : Int
deriving DecidableEq, Repr

/-- Function `rect_intersect` from `mode_tile.c`: AABB intersection; `w` or `h`
is `0` when the inputs are disjoint. -/
def rect_intersect (a b : Rect) : Rect :=
  let x1 := max a.x b.x
  let y1 := max a.y b.y
  let x2 := min (a.x + a.w) (b.x + b.w)
  let y2 := min (a.y + a.h) (b.y + b.h)
  { x := x1, y := y1,
    w := if x1 < x2 then x2 - x1 else 0,
    h := if y1 < y2 then y2 - y1 else 0 }

/-- Body of `rect_subtract` with the C local `i = rect_intersect(a, b)`
made an explicit argument: the cross decomposition of `a` minus `i` as
full-height left/right strips then top/bottom middle strips, each
emitted only when non-empty; `[a]` when `i` is degenerate. -/
def rect_subtract_core (a i : Rect) : List Rect :=
  if i.w ≤ 0 ∨ i.h ≤ 0 then [a]
  else
    (if a.x < i.x then
       [{ x := a.x, y := a.y, w := i.x - a.x, h := a.h }] else []) ++
    (if i.x + i.w < a.x + a.w then
       [{ x := i.x + i.w, y := a.y, w := a.x + a.w - (i.x + i.w), h := a.h }] else []) ++
    (if a.y < i.y then
       [{ x := i.x, y := a.y, w := i.w, h := i.y - a.y }] else []) ++
    (if i.y + i.h < a.y + a.h then
       [{ x := i.x, y := i.y + i.h, w := i.w, h := a.y + a.h - (i.y + i.h) }] else [])

/-- Function `rect_subtract` from `mode_tile.c`: subtract rectangle `b` from
rectangle `a` using a cross decomposition. -/
def rect_subtract (a b : Rect) : List Rect :=
  rect_subtract_core a (rect_intersect a b)

/-- Pixel membership: the point `(px, py)` lies inside rectangle `r`
(half-open on the right/bottom, the usual pixel model). -/
def inRect (r : Rect) (px py : Int) : Prop :=
  r.x ≤ px ∧ px < r.x + r.w ∧ r.y ≤ py ∧ py < r.y + r.h

instance (r : Rect) (px py : Int) : Decidable (inRect r px py) := by
  unfold inRect; infer_instance

/-- Pixel membership in the union of a list of rectangles. -/
def inList (rs : List Rect) (px py : Int) : Prop :=
  ∃ r ∈ rs, inRect r px py

instance (rs : List Rect) (px py : Int) : Decidable (inList rs px py) := by
  unfold inList; infer_instance

/-- Two rectangles share no pixel. -/
def RDisj (r s : Rect) : Prop :=
  ∀ px py, inRect r px py → ¬ inRect s px py

theorem inRect_intersect (a b : Rect) (px py : Int) :
    inRect (rect_intersect a b) px py ↔ inRect a px py ∧ inRect b px py := by
  simp only [rect_intersect, inRect]
  split_ifs <;> omega

/-- A degenerate intersection means `a` and `b` share no pixel. -/
theorem intersect_degenerate (a b : Rect)
    (h : (rect_intersect a b).w ≤ 0 ∨ (rect_intersect a b).h ≤ 0) :
    ∀ px py, ¬ (inRect a px py ∧ inRect b px py) := by
  intro px py hc
  have := (inRect_intersect a b px py).mpr hc
  simp only [rect_intersect, inRect] at this h
  split_ifs at h this <;> omega

/-- The intersection lies inside `a` (in both axes). -/
theorem intersect_inside (a b : Rect) :
    a.x ≤ (rect_intersect a b).x ∧
    (rect_intersect a b).x + (rect_intersect a b).w ≤ a.x + a.w ∧
    a.y ≤ (rect_intersect a b).y ∧
    (rect_intersect a b).y + (rect_intersect a b).h ≤ a.y + a.h ∨
      (rect_intersect a b).w ≤ 0 ∨ (rect_intersect a b).h ≤ 0 := by
  simp only [rect_intersect]
  split_ifs <;> omega

theorem inList_append (l₁ l₂ : List Rect) (px py : Int) :
    inList (l₁ ++ l₂) px py ↔ inList l₁ px py ∨ inList l₂ px py := by
  simp [inList, List.mem_append, or_and_right, exists_or]

theorem inList_ite (c : Prop) [Decidable c] (r : Rect) (px py : Int) :
    inList (if c then [r] else []) px py ↔ c ∧ inRect r px py := by
  split_ifs with h <;> simp [inList, h]

theorem inList_singleton (r : Rect) (px py : Int) :
    inList [r] px py ↔ inRect r px py := by
  simp [inList]

/-- The core covers exactly the pixels of `a` outside `i`,
provided `i` lies inside `a`. -/
theorem rect_subtract_core_cover (a i : Rect) (px py : Int)
    (hx1 : a.x ≤ i.x) (hx2 : i.x + i.w ≤ a.x + a.w)
    (hy1 : a.y ≤ i.y) (hy2 : i.y + i.h ≤ a.y + a.h) :
    inList (rect_subtract_core a i) px py ↔ inRect a px py ∧ ¬ inRect i px py := by
  rw [rect_subtract_core]
  by_cases hdeg : i.w ≤ 0 ∨ i.h ≤ 0
  · rw [if_pos hdeg, inList_singleton]
    unfold inRect
    omega
  · rw [if_neg hdeg, inList_append, inList_append, inList_append,
      inList_ite, inList_ite, inList_ite, inList_ite]
    simp only [inRect]
    omega

/-- The strips produced by `rect_subtract_core` are pairwise disjoint. -/
theorem rect_subtract_core_disjoint (a i : Rect) :
    (rect_subtract_core a i).Pairwise RDisj := by
  rw [rect_subtract_core]
  split_ifs <;>
    simp only [List.pairwise_append, List.pairwise_cons,
      List.mem_singleton, List.not_mem_nil, List.mem_append,
      RDisj, inRect, List.pairwise_singleton, false_or, or_false,
      IsEmpty.forall_iff, forall_eq, true_and, and_true]
  all_goals repeat' apply And.intro
  all_goals first
    | exact List.Pairwise.nil
    | (intros; trivial)
    | (intros; (try casesm* _ ∨ _) <;> (subst_vars; (try dsimp only at *); omega))

/-- All rectangles returned by `rect_subtract_core` have positive
dimensions, provided `a` itself does. -/
theorem rect_subtract_core_pos (a i : Rect) (ha : 0 < a.w ∧ 0 < a.h)
    (hx1 : a.x ≤ i.x) (hx2 : i.x + i.w ≤ a.x + a.w)
    (hy1 : a.y ≤ i.y) (hy2 : i.y + i.h ≤ a.y + a.h) :
    ∀ r ∈ rect_subtract_core a i, 0 < r.w ∧ 0 < r.h := by
  rw [rect_subtract_core]
  split_ifs <;> intro r hr <;> fin_cases hr <;> (try dsimp only) <;> omega

/-- Subtraction covers exactly the pixels of `a` outside `b`. -/
theorem rect_subtract_cover (a b : Rect) (px py : Int) :
    inList (rect_subtract a b) px py ↔ inRect a px py ∧ ¬ inRect b px py := by
  rcases intersect_inside a b with h | hdeg
  · rw [rect_subtract, rect_subtract_core_cover a _ px py h.1 h.2.1 h.2.2.1 h.2.2.2]
    constructor
    · rintro ⟨ha, hi⟩
      exact ⟨ha, fun hb => hi ((inRect_intersect a b px py).mpr ⟨ha, hb⟩)⟩
    · rintro ⟨ha, hb⟩
      exact ⟨ha, fun hi => hb ((inRect_intersect a b px py).mp hi).2⟩
  · rw [rect_subtract, rect_subtract_core, if_pos hdeg, inList_singleton]
    have hnc := intersect_degenerate a b hdeg px py
    constructor
    · intro ha
      exact ⟨ha, fun hb => hnc ⟨ha, hb⟩⟩
    · rintro ⟨ha, -⟩
      exact ha

/-- Every rectangle produced by `rect_subtract a b` is contained in `a`
and avoids `b`. -/
theorem rect_subtract_subset (a b : Rect) (r : Rect) (hr : r ∈ rect_subtract a b) :
    ∀ px py, inRect r px py → inRect a px py ∧ ¬ inRect b px py :=
  fun px py hp => (rect_subtract_cover a b px py).mp ⟨r, hr, hp⟩

/-- The rectangles produced by `rect_subtract` are pairwise disjoint. -/
theorem rect_subtract_disjoint (a b : Rect) :
    (rect_subtract a b).Pairwise RDisj :=
  rect_subtract_core_disjoint a _

/-- All rectangles produced by `rect_subtract` have positive dimensions,
provided `a` itself does. -/
theorem rect_subtract_pos (a b : Rect) (ha : 0 < a.w ∧ 0 < a.h) :
    ∀ r ∈ rect_subtract a b, 0 < r.w ∧ 0 < r.h := by
  rcases intersect_inside a b with h | hdeg
  · exact rect_subtract_core_pos a _ ha h.1 h.2.1 h.2.2.1 h.2.2.2
  · rw [rect_subtract, rect_subtract_core, if_pos hdeg]
    intro r hr
    rw [List.mem_singleton] at hr
    subst hr
    exact ha

/-- Subtraction returns at most four rectangles. -/
theorem rect_subtract_length_le (a b : Rect) :
    (rect_subtract a b).length ≤ 4 := by
  rw [rect_subtract, rect_subtract_core]
  split_ifs <;> simp [List.length_append]

/-- When `a` and `b` have a degenerate intersection, `rect_subtract`
returns `[a]` unchanged. -/
theorem rect_subtract_of_degenerate (a b : Rect)
    (hdeg : (rect_intersect a b).w ≤ 0 ∨ (rect_intersect a b).h ≤ 0) :
    rect_subtract a b = [a] := by
  rw [rect_subtract, rect_subtract_core, if_pos hdeg]

/-- Constant `MAX_PENDING_RECTS` from `mode_tile.c`: upper bound on pending
sub-rectangles when computing one output's exclusive area. -/
def MAX_PENDING_RECTS : Nat := 64

/-- The inner copy loop of `mode_tile.c:125-128`: append each piece to
the next-pass buffer while it has room; pieces beyond the capacity are
silently dropped. -/
def capAppend (acc ps : List Rect) : List Rect :=
  ps.foldl (fun a p => if a.length < MAX_PENDING_RECTS then a ++ [p] else a) acc

/-- One pass of the ping-pong loop (`mode_tile.c:120-132`): subtract one
processed output's bounds from every pending rectangle, accumulating
results in a fresh buffer. -/
def subtractPass (processed : Rect) (cur : List Rect) : List Rect :=
  cur.foldl (fun acc r => capAppend acc (rect_subtract r processed)) []

/-- The full ping-pong loop over all previously processed outputs
(`mode_tile.c:120-132`); the C loop's early exit on an empty pending set
is behaviourally identical since a pass over an empty set is empty. -/
def passFold (processedList : List Rect) (cur : List Rect) : List Rect :=
  processedList.foldl (fun c p => subtractPass p c) cur

/-- Total number of pieces a pass would ideally produce; a pass drops
pieces iff this exceeds `MAX_PENDING_RECTS`. -/
def passTotal (processed : Rect) (cur : List Rect) : Nat :=
  (cur.map fun r => (rect_subtract r processed).length).sum

/-- Predicate `passFoldOK pl cur` holds when no pass of the ping-pong loop would
overflow the `MAX_PENDING_RECTS` buffer (hence no piece is dropped). -/
def passFoldOK : List Rect → List Rect → Bool
  | [], _ => true
  | p :: pl, cur =>
    decide (passTotal p cur ≤ MAX_PENDING_RECTS) && passFoldOK pl (subtractPass p cur)

theorem capAppend_eq_take (acc ps : List Rect) :
    capAppend acc ps = acc ++ ps.take (MAX_PENDING_RECTS - acc.length) := by
  induction ps generalizing acc with
  | nil => simp [capAppend]
  | cons p ps ih =>
    rw [capAppend, List.foldl_cons]
    by_cases h : acc.length < MAX_PENDING_RECTS
    · rw [if_pos h]
      rw [show List.foldl _ (acc ++ [p]) ps = capAppend (acc ++ [p]) ps from rfl, ih]
      obtain ⟨k, hk⟩ : ∃ k, MAX_PENDING_RECTS - acc.length = k + 1 :=
        ⟨MAX_PENDING_RECTS - acc.length - 1, by omega⟩
      rw [hk, List.take_succ_cons]
      simp only [List.length_append, List.length_singleton]
      rw [show MAX_PENDING_RECTS - (acc.length + 1) = k from by omega]
      simp
    · rw [if_neg h]
      rw [show List.foldl _ acc ps = capAppend acc ps from rfl, ih]
      rw [show MAX_PENDING_RECTS - acc.length = 0 from by omega]
      simp

theorem capAppend_length (acc ps : List Rect) :
    (capAppend acc ps).length =
      acc.length + min (MAX_PENDING_RECTS - acc.length) ps.length := by
  rw [capAppend_eq_take]
  simp [List.length_take]

theorem capAppend_mem (acc ps : List Rect) (r : Rect) (h : r ∈ capAppend acc ps) :
    r ∈ acc ∨ r ∈ ps := by
  rw [capAppend_eq_take, List.mem_append] at h
  rcases h with h | h
  · exact Or.inl h
  · exact Or.inr (List.mem_of_mem_take h)

theorem capAppend_eq_append (acc ps : List Rect)
    (h : acc.length + ps.length ≤ MAX_PENDING_RECTS) :
    capAppend acc ps = acc ++ ps := by
  rw [capAppend_eq_take, List.take_of_length_le (by omega)]

theorem subtractPass_go_length (p : Rect) (cur acc : List Rect)
    (h : acc.length ≤ MAX_PENDING_RECTS) :
    (cur.foldl (fun a r => capAppend a (rect_subtract r p)) acc).length ≤
      MAX_PENDING_RECTS := by
  induction cur generalizing acc with
  | nil => simpa using h
  | cons r cur ih =>
    rw [List.foldl_cons]
    exact ih _ (by rw [capAppend_length]; omega)

/-- The pending buffer never exceeds `MAX_PENDING_RECTS` entries. -/
theorem subtractPass_length (p : Rect) (cur : List Rect) :
    (subtractPass p cur).length ≤ MAX_PENDING_RECTS :=
  subtractPass_go_length p cur [] (by simp [MAX_PENDING_RECTS])

theorem subtractPass_go_mem (p : Rect) (cur acc : List Rect) (r : Rect)
    (h : r ∈ cur.foldl (fun a r => capAppend a (rect_subtract r p)) acc) :
    r ∈ acc ∨ ∃ r0 ∈ cur, r ∈ rect_subtract r0 p := by
  induction cur generalizing acc with
  | nil => exact Or.inl h
  | cons r1 cur ih =>
    rw [List.foldl_cons] at h
    rcases ih _ h with h' | ⟨r0, hr0, hmem⟩
    · rcases capAppend_mem _ _ _ h' with h'' | h''
      · exact Or.inl h''
      · exact Or.inr ⟨r1, List.mem_cons_self _ _, h''⟩
    · exact Or.inr ⟨r0, List.mem_cons_of_mem _ hr0, hmem⟩

/-- Every rectangle in a pass result originates from subtracting the
processed bounds from some pending rectangle. -/
theorem subtractPass_mem (p : Rect) (cur : List Rect) (r : Rect)
    (h : r ∈ subtractPass p cur) :
    ∃ r0 ∈ cur, r ∈ rect_subtract r0 p := by
  rcases subtractPass_go_mem p cur [] r h with h' | h'
  · simp at h'
  · exact h'

/-- Pixel-level upper bound on a pass: it only keeps pixels of the
pending set outside the processed bounds. -/
theorem subtractPass_inList_mp (p : Rect) (cur : List Rect) (px py : Int)
    (h : inList (subtractPass p cur) px py) :
    inList cur px py ∧ ¬ inRect p px py := by
  obtain ⟨r, hr, hp⟩ := h
  obtain ⟨r0, hr0, hmem⟩ := subtractPass_mem p cur r hr
  have := rect_subtract_subset r0 p r hmem px py hp
  exact ⟨⟨r0, hr0, this.1⟩, this.2⟩

theorem subtractPass_go_ideal (p : Rect) (cur acc : List Rect)
    (h : acc.length + passTotal p cur ≤ MAX_PENDING_RECTS) :
    cur.foldl (fun a r => capAppend a (rect_subtract r p)) acc =
      cur.foldl (fun a r => a ++ rect_subtract r p) acc := by
  induction cur generalizing acc with
  | nil => rfl
  | cons r1 cur ih =>
    rw [passTotal, List.map_cons, List.sum_cons] at h
    rw [List.foldl_cons, List.foldl_cons,
      capAppend_eq_append _ _ (by omega)]
    exact ih _ (by rw [passTotal]; simp only [List.length_append]; omega)

theorem idealPass_go_inList (p : Rect) (cur acc : List Rect) (px py : Int) :
    inList (cur.foldl (fun a r => a ++ rect_subtract r p) acc) px py ↔
      inList acc px py ∨ (inList cur px py ∧ ¬ inRect p px py) := by
  induction cur generalizing acc with
  | nil => simp [inList]
  | cons r1 cur ih =>
    rw [List.foldl_cons, ih, inList_append, rect_subtract_cover]
    constructor
    · rintro ((ha | hb) | hc)
      · exact Or.inl ha
      · exact Or.inr ⟨⟨r1, List.mem_cons_self _ _, hb.1⟩, hb.2⟩
      · obtain ⟨⟨r0, hr0, hin⟩, hout⟩ := hc
        exact Or.inr ⟨⟨r0, List.mem_cons_of_mem _ hr0, hin⟩, hout⟩
    · rintro (ha | ⟨⟨r0, hr0, hin⟩, hout⟩)
      · exact Or.inl (Or.inl ha)
      · rcases List.mem_cons.mp hr0 with rfl | hr0'
        · exact Or.inl (Or.inr ⟨hin, hout⟩)
        · exact Or.inr ⟨⟨r0, hr0', hin⟩, hout⟩

/-- When a pass does not overflow, it keeps exactly the pixels of the
pending set outside the processed bounds. -/
theorem subtractPass_inList (p : Rect) (cur : List Rect) (px py : Int)
    (hok : passTotal p cur ≤ MAX_PENDING_RECTS) :
    inList (subtractPass p cur) px py ↔
      inList cur px py ∧ ¬ inRect p px py := by
  rw [subtractPass, subtractPass_go_ideal p cur [] (by simpa using hok),
    idealPass_go_inList]
  simp [inList]

theorem RDisj_symm (r s : Rect) (h : RDisj r s) : RDisj s r :=
  fun px py hs hr => h px py hr hs

/-- Shrinking the left rectangle preserves disjointness. -/
theorem RDisj_shrink_left (r r' s : Rect)
    (hsub : ∀ px py, inRect r' px py → inRect r px py) (h : RDisj r s) :
    RDisj r' s :=
  fun px py hr' hs => h px py (hsub px py hr') hs

/-- Shrinking the right rectangle preserves disjointness. -/
theorem RDisj_shrink_right (a r s : Rect)
    (hsub : ∀ px py, inRect s px py → inRect r px py) (h : RDisj a r) :
    RDisj a s :=
  fun px py ha hs => h px py ha (hsub px py hs)

theorem subtractPass_go_pairwise (p : Rect) (cur acc : List Rect)
    (hacc : acc.Pairwise RDisj)
    (hcur : cur.Pairwise RDisj)
    (hcross : ∀ a ∈ acc, ∀ c ∈ cur, RDisj a c) :
    (cur.foldl (fun a r => capAppend a (rect_subtract r p)) acc).Pairwise RDisj := by
  induction cur generalizing acc with
  | nil => exact hacc
  | cons r1 cur ih =>
    rw [List.foldl_cons]
    rcases List.pairwise_cons.mp hcur with ⟨hr1, hcur'⟩
    apply ih
    · rw [capAppend_eq_take, List.pairwise_append]
      refine ⟨hacc, List.Pairwise.sublist (List.take_sublist _ _)
        (rect_subtract_core_disjoint r1 _), ?_⟩
      intro a ha s hs
      have hsSub := List.mem_of_mem_take hs
      exact RDisj_shrink_right a r1 s
        (fun px py hp => (rect_subtract_subset r1 p s hsSub px py hp).1)
        (hcross a ha r1 (List.mem_cons_self _ _))
    · exact hcur'
    · intro a ha c hc
      rcases capAppend_mem _ _ _ ha with ha' | ha'
      · exact hcross a ha' c (List.mem_cons_of_mem _ hc)
      · exact RDisj_shrink_left r1 a c
          (fun px py hp => (rect_subtract_subset r1 p a ha' px py hp).1)
          (hr1 c hc)

theorem subtractPass_pairwise (p : Rect) (cur : List Rect)
    (hcur : cur.Pairwise RDisj) :
    (subtractPass p cur).Pairwise RDisj :=
  subtractPass_go_pairwise p cur [] List.Pairwise.nil hcur (by simp)

theorem passFold_pairwise (pl cur : List Rect) (hcur : cur.Pairwise RDisj) :
    (passFold pl cur).Pairwise RDisj := by
  induction pl generalizing cur with
  | nil => exact hcur
  | cons q pl ih => exact ih _ (subtractPass_pairwise q cur hcur)

/-- Whatever the ping-pong loop keeps lies inside the original pending
set and outside every processed output. -/
theorem passFold_mem_subset (pl cur : List Rect) (r : Rect)
    (hr : r ∈ passFold pl cur) (px py : Int) (hp : inRect r px py) :
    inList cur px py ∧ ∀ q ∈ pl, ¬ inRect q px py := by
  induction pl generalizing cur with
  | nil => exact ⟨⟨r, hr, hp⟩, by simp⟩
  | cons q pl ih =>
    obtain ⟨hin, hrest⟩ := ih (subtractPass q cur) hr
    have hq := subtractPass_inList_mp q cur px py hin
    refine ⟨hq.1, ?_⟩
    intro q' hq'
    rcases List.mem_cons.mp hq' with rfl | hq''
    · exact hq.2
    · exact hrest q' hq''

/-- When no pass overflows, the ping-pong loop keeps exactly the pixels
of the pending set outside every processed output. -/
theorem passFold_inList (pl cur : List Rect) (px py : Int)
    (hok : passFoldOK pl cur = true) :
    inList (passFold pl cur) px py ↔
      inList cur px py ∧ ∀ q ∈ pl, ¬ inRect q px py := by
  induction pl generalizing cur with
  | nil => simp [passFold]
  | cons q pl ih =>
    rw [passFoldOK, Bool.and_eq_true, decide_eq_true_eq] at hok
    have hstep : passFold (q :: pl) cur = passFold pl (subtractPass q cur) := rfl
    rw [hstep, ih _ hok.2, subtractPass_inList q cur px py hok.1,
      List.forall_mem_cons]
    tauto

theorem passFold_length (pl cur : List Rect)
    (h : cur.length ≤ MAX_PENDING_RECTS) :
    (passFold pl cur).length ≤ MAX_PENDING_RECTS := by
  induction pl generalizing cur with
  | nil => exact h
  | cons q pl ih => exact ih _ (subtractPass_length q cur)

theorem passFold_pos (pl cur : List Rect)
    (hcur : ∀ r ∈ cur, 0 < r.w ∧ 0 < r.h) :
    ∀ r ∈ passFold pl cur, 0 < r.w ∧ 0 < r.h := by
  induction pl generalizing cur with
  | nil => exact hcur
  | cons q pl ih =>
    refine ih _ ?_
    intro r hr
    obtain ⟨r0, hr0, hmem⟩ := subtractPass_mem q cur r hr
    exact rect_subtract_pos r0 q (hcur r0 hr0) r hmem

/-- Constant `MIN_SUB_AREA_SIZE` from `mode_tile.c`. -/
def MIN_SUB_AREA_SIZE : Int := 25 * 50

/-- Constant `max_num_sub_areas` from `tile_mode_enter`: the 26 × 26 label budget. -/
def max_num_sub_areas : Int := 26 * 26

/-- Structural (kernel-executable) floor square root: advance `k` while
`(k+1)² ≤ n`, with enough fuel to reach `⌊√n⌋`. -/
def isqrtGo (n : Nat) : Nat → Nat → Nat
  | 0, k => k
  | fuel + 1, k => if (k + 1) * (k + 1) ≤ n then isqrtGo n fuel (k + 1) else k

/-- Floor square root `⌊√n⌋` of a natural number. -/
def isqrt (n : Nat) : Nat := isqrtGo n n 0

theorem isqrtGo_spec (n : Nat) : ∀ fuel k, k * k ≤ n →
    n < (k + fuel + 1) * (k + fuel + 1) →
    isqrtGo n fuel k * isqrtGo n fuel k ≤ n ∧
      n < (isqrtGo n fuel k + 1) * (isqrtGo n fuel k + 1) := by
  intro fuel
  induction fuel with
  | zero =>
    intro k hk hup
    simpa [isqrtGo] using ⟨hk, by simpa using hup⟩
  | succ fuel ih =>
    intro k hk hup
    rw [isqrtGo]
    split_ifs with h
    · exact ih (k + 1) h (by
        have : k + 1 + fuel + 1 = k + (fuel + 1) + 1 := by omega
        rw [this]
        exact hup)
    · exact ⟨hk, by omega⟩

/-- The function `isqrt` is the floor square root. -/
theorem isqrt_spec (n : Nat) :
    isqrt n * isqrt n ≤ n ∧ n < (isqrt n + 1) * (isqrt n + 1) := by
  refine isqrtGo_spec n n 0 (by simp) ?_
  nlinarith

/-- C's `(int)sqrt(x / 2.)` for the nonnegative `x` the code feeds it:
an integer `k` satisfies `k ≤ √(x/2)` iff `k² ≤ x/2` iff `k² ≤ ⌊x/2⌋`,
so the truncated floating square root of the real half equals the
integer floor square root of the integer half (C `double` sqrt is
correctly rounded and the argument is far below 2⁵², so no rounding
crosses an integer). -/
def cSqrtHalf (x : Int) : Int := (isqrt (x.tdiv 2).toNat : Int)

/-- C's `(int)sqrt(x * 2.)` for nonnegative `x`: the argument is an
exact integer, so the truncated square root is `⌊√(2x)⌋`. -/
def cSqrtDouble (x : Int) : Int := (isqrt (x * 2).toNat : Int)

/-- Structure `tile_region` from the C header: one exclusive rectangular area
plus its grid and global label range. -/
structure TileRegion where
  area : Rect
  rows : Int
  cols : Int
  cell_h : Int
  cell_h_off : Int
  cell_w : Int
  cell_w_off : Int
  label_offset : Int
  num_labels : Int
deriving DecidableEq, Repr

/-- Region creation from one exclusive sub-rectangle
(`mode_tile.c:141-151`), with the shared cell size `cell_h0 × cell_w0`. -/
def mkRegion (cell_h0 cell_w0 : Int) (r_area : Rect) (label_offset : Int) :
    TileRegion :=
  let rows := max (r_area.h.tdiv cell_h0) 1
  let cols := max (r_area.w.tdiv cell_w0) 1
  { area := r_area
    rows := rows
    cols := cols
    cell_h := r_area.h.tdiv rows
    cell_h_off := r_area.h.tmod rows
    cell_w := r_area.w.tdiv cols
    cell_w_off := r_area.w.tmod cols
    label_offset := label_offset
    num_labels := rows * cols }

/-- Accumulator of the output-processing loop: regions created so far,
full bounds of already-processed outputs, next free label index. -/
structure BuildState where
  regions : List TileRegion
  processed : List Rect
  label_offset : Int
deriving Repr

/-- Region-creation loop (`mode_tile.c:135-152`): one region per
non-degenerate exclusive sub-rectangle, skipped when the region arena
(`n * MAX_PENDING_RECTS` slots) is full. -/
def addRegions (n : Nat) (cell_h0 cell_w0 : Int) (st : BuildState)
    (excl : List Rect) : BuildState :=
  excl.foldl
    (fun s ra =>
      if ra.w ≤ 0 ∨ ra.h ≤ 0 ∨ n * MAX_PENDING_RECTS ≤ s.regions.length then s
      else
        let r := mkRegion cell_h0 cell_w0 ra s.label_offset
        { s with
          regions := s.regions ++ [r]
          label_offset := s.label_offset + r.num_labels })
    st

/-- Processing of one bound output (`mode_tile.c:109-156`): compute its
exclusive rectangles with the ping-pong loop, create regions, then
append its full (unreduced) bounds to the processed list. -/
def processOutput (n : Nat) (cell_h0 cell_w0 : Int) (st : BuildState) (o : Rect) :
    BuildState :=
  let excl := passFold st.processed [o]
  let st' := addRegions n cell_h0 cell_w0 st excl
  { st' with processed := st'.processed ++ [o] }

/-- The whole multi-output region-construction loop, over the bound
outputs in surface-list order. -/
def buildRegions (cell_h0 cell_w0 : Int) (outputs : List Rect) : BuildState :=
  outputs.foldl (processOutput outputs.length cell_h0 cell_w0)
    { regions := [], processed := [], label_offset := 0 }

/-- Shared multi-output cell sizing (`mode_tile.c:79-97`): average
bound-output area, label budget, 2:1 aspect bias. -/
def multiCellSize (outputs : List Rect) : Int × Int :=
  let total_area := (outputs.map (fun o => o.w * o.h)).sum
  let n : Int := outputs.length
  let avg_area := total_area.tdiv n
  let sub_area_size := max (avg_area.tdiv max_num_sub_areas) MIN_SUB_AREA_SIZE
  (max (cSqrtHalf sub_area_size) 1, max (cSqrtDouble sub_area_size) 1)

/-- The flat-grid fields of `struct tile_mode_state`. -/
structure FlatGrid where
  sub_area_height : Int
  sub_area_rows : Int
  sub_area_height_off : Int
  sub_area_width : Int
  sub_area_columns : Int
  sub_area_width_off : Int
deriving DecidableEq, Repr

/-- Single-output flat-grid sizing (`mode_tile.c:160-184`). -/
def flatGrid (area : Rect) : FlatGrid :=
  let density_area := area.w * area.h
  let sub_area_size := max (density_area.tdiv max_num_sub_areas) MIN_SUB_AREA_SIZE
  let h0 := cSqrtHalf sub_area_size
  let rows0 := area.h.tdiv h0
  let rows := if rows0 = 0 then 1 else rows0
  let height_off := area.h.tmod rows
  let height := area.h.tdiv rows
  let w0 := cSqrtDouble sub_area_size
  let cols0 := area.w.tdiv w0
  let cols := if cols0 = 0 then 1 else cols0
  let width_off := area.w.tmod cols
  let width := area.w.tdiv cols
  { sub_area_height := height
    sub_area_rows := rows
    sub_area_height_off := height_off
    sub_area_width := width
    sub_area_columns := cols
    sub_area_width_off := width_off }

/-- Function `idx_to_rect` (`mode_tile.c:207-222`): column-major decomposition of
a flat-grid label index into a cell rectangle, with remainder pixels
given to the first `*_off` columns/rows. -/
def idx_to_rect (g : FlatGrid) (idx x_off y_off : Int) : Rect :=
  let column := idx.tdiv g.sub_area_rows
  let row := idx.tmod g.sub_area_rows
  { x := column * g.sub_area_width + min column g.sub_area_width_off + x_off
    w := g.sub_area_width + (if column < g.sub_area_width_off then 1 else 0)
    y := row * g.sub_area_height + min row g.sub_area_height_off + y_off
    h := g.sub_area_height + (if row < g.sub_area_height_off then 1 else 0) }

/-- Cell rectangle of local index `li` within region `r`, in screen
coordinates: the formula shared by the key handler
(`mode_tile.c:256-270`) and the renderer (`mode_tile.c:377-382`). -/
def regionRect (r : TileRegion) (li : Int) : Rect :=
  let col := li.tdiv r.rows
  let row := li.tmod r.rows
  { x := r.area.x + (col * r.cell_w + min col r.cell_w_off)
    y := r.area.y + (row * r.cell_h + min row r.cell_h_off)
    w := r.cell_w + (if col < r.cell_w_off then 1 else 0)
    h := r.cell_h + (if row < r.cell_h_off then 1 else 0) }

/-- Reverse resolution in `tile_mode_key` (`mode_tile.c:250-273`): scan
regions in creation order for the first whose label range contains
`label_idx` and decompose the local index column-major. -/
def resolveRect : List TileRegion → Int → Option Rect
  | [], _ => none
  | r :: rest, label_idx =>
    if label_idx < r.label_offset ∨ r.label_offset + r.num_labels ≤ label_idx then
      resolveRect rest label_idx
    else some (regionRect r (label_idx - r.label_offset))

/-- Forward rendering traversal over regions (`mode_tile.c:362-389`):
cells of each region in column-major local order, regions in creation
order, one rectangle per global label index. -/
def renderRects : List TileRegion → List Rect
  | [] => []
  | r :: rest =>
    (List.range r.num_labels.toNat).map (fun (li : Nat) => regionRect r (li : Int)) ++
      renderRects rest

/-- Forward flat-grid traversal (`mode_tile.c:402-420`); the renderer
draws at area-relative coordinates under a cairo translation by
`(area.x, area.y)`, so in screen space cell `li` is `idx_to_rect` with
the area origin as offset — exactly the call the key handler makes at
`mode_tile.c:276`. -/
def renderRectsFlat (g : FlatGrid) (area : Rect) (num_labels : Nat) : List Rect :=
  (List.range num_labels).map (fun (li : Nat) => idx_to_rect g (li : Int) area.x area.y)

/-- The fields of `struct tile_mode_state` the claims observe;
`labelSelection` is the capacity passed to `label_selection_new`
(`none` models a NULL `label_selection`), and `hasRegions` models
`ms->regions != NULL`. -/
structure TileModeState where
  area : Rect
  hasSymbols : Bool
  labelSelection : Option Int
  hasRegions : Bool
  regions : List TileRegion
  flat : FlatGrid
deriving Repr

/-- Result of `tile_mode_enter`: the host `running` flag after entry and
the constructed mode state. -/
structure EnterResult where
  running : Bool
  ms : TileModeState

/-- Zero-initialised flat fields (`calloc` in `tile_mode_enter`). -/
def emptyFlat : FlatGrid := ⟨0, 0, 0, 0, 0, 0⟩

/-- Function `tile_mode_enter` (`mode_tile.c:54-192`).  Inputs: the host `running`
flag, `config.general.all_outputs`, the overlay-surface list (each entry
carrying the bound output's bounds, or `none` for a surface without an
output), whether `label_symbols_from_str` succeeded (it is external to
this file; only its NULL-ness is observed here), and the bounding
`area`. -/
def tile_mode_enter (running : Bool) (all_outputs : Bool)
    (surfaces : List (Option Rect)) (symbolsValid : Bool) (area : Rect) :
    EnterResult :=
  if symbolsValid = false then
    { running := false
      ms := { area := area, hasSymbols := false, labelSelection := none,
              hasRegions := false, regions := [], flat := emptyFlat } }
  else if all_outputs = true ∧ surfaces ≠ [] then
    let outputs := surfaces.filterMap id
    if outputs.length = 0 then
      { running := false
        ms := { area := area, hasSymbols := true, labelSelection := none,
                hasRegions := false, regions := [], flat := emptyFlat } }
    else
      let cs := multiCellSize outputs
      let bs := buildRegions cs.1 cs.2 outputs
      { running := running
        ms := { area := area, hasSymbols := true,
                labelSelection := some bs.label_offset,
                hasRegions := true, regions := bs.regions, flat := emptyFlat } }
  else
    let g := flatGrid area
    { running := running
      ms := { area := area, hasSymbols := true,
              labelSelection := some (g.sub_area_rows * g.sub_area_columns),
              hasRegions := false, regions := [], flat := g } }

theorem tdiv_le_self_of_pos (a b : Int) (ha : 0 ≤ a) (hb : 1 ≤ b) :
    a.tdiv b ≤ a := by
  have hid := Int.tdiv_add_tmod a b
  have hr0 := Int.tmod_nonneg b ha
  have hb' : (0 : Int) ≤ b := by omega
  have hq0 := Int.tdiv_nonneg ha hb'
  nlinarith [hid, hr0, hq0]

theorem one_le_tdiv (a b : Int) (hb : 0 < b) (hba : b ≤ a) :
    1 ≤ a.tdiv b := by
  have hid := Int.tdiv_add_tmod a b
  have hrb := Int.tmod_lt_of_pos a hb
  by_contra hcon
  push_neg at hcon
  have hq : a.tdiv b ≤ 0 := by omega
  nlinarith [hid, hrb, hq, hb]

theorem tdiv_lt_of_lt_mul (a b c : Int) (ha : 0 ≤ a) (hb : 0 < b)
    (h : a < b * c) : a.tdiv b < c := by
  have hid := Int.tdiv_add_tmod a b
  have hr0 := Int.tmod_nonneg b ha
  by_contra hcon
  push_neg at hcon
  nlinarith [hid, hr0, mul_le_mul_of_nonneg_left hcon (le_of_lt hb)]

/-- The grid facts every created region enjoys: positive area, at least
one row/column/pixel per cell, remainder in range, and exact
reconstruction of the area dimensions. -/
def GoodRegion (r : TileRegion) : Prop :=
  0 < r.area.w ∧ 0 < r.area.h ∧
  1 ≤ r.rows ∧ 1 ≤ r.cols ∧
  1 ≤ r.cell_h ∧ 1 ≤ r.cell_w ∧
  0 ≤ r.cell_h_off ∧ r.cell_h_off < r.rows ∧
  0 ≤ r.cell_w_off ∧ r.cell_w_off < r.cols ∧
  r.cell_h * r.rows + r.cell_h_off = r.area.h ∧
  r.cell_w * r.cols + r.cell_w_off = r.area.w ∧
  r.num_labels = r.rows * r.cols

theorem mkRegion_good (cell_h0 cell_w0 : Int) (ra : Rect) (off : Int)
    (hch : 1 ≤ cell_h0) (hcw : 1 ≤ cell_w0) (hw : 0 < ra.w) (hh : 0 < ra.h) :
    GoodRegion (mkRegion cell_h0 cell_w0 ra off) := by
  have hrows1 : (1 : Int) ≤ max (ra.h.tdiv cell_h0) 1 := le_max_right _ _
  have hcols1 : (1 : Int) ≤ max (ra.w.tdiv cell_w0) 1 := le_max_right _ _
  have hrows_le : max (ra.h.tdiv cell_h0) 1 ≤ ra.h :=
    max_le (tdiv_le_self_of_pos ra.h cell_h0 (by omega) hch) (by omega)
  have hcols_le : max (ra.w.tdiv cell_w0) 1 ≤ ra.w :=
    max_le (tdiv_le_self_of_pos ra.w cell_w0 (by omega) hcw) (by omega)
  refine ⟨hw, hh, hrows1, hcols1, ?_, ?_, ?_, ?_, ?_, ?_, ?_, ?_, rfl⟩
  · exact one_le_tdiv ra.h _ (by omega) hrows_le
  · exact one_le_tdiv ra.w _ (by omega) hcols_le
  · exact Int.tmod_nonneg _ (by omega)
  · exact Int.tmod_lt_of_pos _ (by omega)
  · exact Int.tmod_nonneg _ (by omega)
  · exact Int.tmod_lt_of_pos _ (by omega)
  · have := Int.tdiv_add_tmod ra.h (max (ra.h.tdiv cell_h0) 1)
    simp only [mkRegion]
    linarith [this, mul_comm (max (ra.h.tdiv cell_h0) 1) (ra.h.tdiv (max (ra.h.tdiv cell_h0) 1))]
  · have := Int.tdiv_add_tmod ra.w (max (ra.w.tdiv cell_w0) 1)
    simp only [mkRegion]
    linarith [this, mul_comm (max (ra.w.tdiv cell_w0) 1) (ra.w.tdiv (max (ra.w.tdiv cell_w0) 1))]

/-- Total label count of a region list. -/
def sumLabels (rs : List TileRegion) : Int :=
  (rs.map TileRegion.num_labels).sum

/-- The label ranges of `rs` are contiguous and non-overlapping,
starting at `o`, in list order. -/
def ContigFrom : Int → List TileRegion → Prop
  | _, [] => True
  | o, r :: rest => r.label_offset = o ∧ ContigFrom (o + r.num_labels) rest

theorem sumLabels_append (l : List TileRegion) (r : TileRegion) :
    sumLabels (l ++ [r]) = sumLabels l + r.num_labels := by
  simp [sumLabels]

theorem contigFrom_append (o : Int) (l : List TileRegion) (r : TileRegion)
    (h : ContigFrom o l) (hr : r.label_offset = o + sumLabels l) :
    ContigFrom o (l ++ [r]) := by
  induction l generalizing o with
  | nil =>
    simp [sumLabels] at hr
    exact ⟨hr, trivial⟩
  | cons r0 l ih =>
    obtain ⟨h0, hrest⟩ := h
    refine ⟨h0, ih _ hrest ?_⟩
    rw [hr]
    simp [sumLabels]
    ring

theorem addRegions_processed (n : Nat) (ch cw : Int) (st : BuildState)
    (excl : List Rect) :
    (addRegions n ch cw st excl).processed = st.processed := by
  induction excl generalizing st with
  | nil => rfl
  | cons ra excl ih =>
    rw [addRegions, List.foldl_cons]
    split_ifs <;> exact ih _

theorem addRegions_cons (n : Nat) (ch cw : Int) (st : BuildState)
    (ra : Rect) (excl : List Rect) :
    addRegions n ch cw st (ra :: excl) =
      if ra.w ≤ 0 ∨ ra.h ≤ 0 ∨ n * MAX_PENDING_RECTS ≤ st.regions.length then
        addRegions n ch cw st excl
      else
        addRegions n ch cw
          { st with
            regions := st.regions ++ [mkRegion ch cw ra st.label_offset]
            label_offset := st.label_offset +
              (mkRegion ch cw ra st.label_offset).num_labels }
          excl := by
  rw [addRegions, List.foldl_cons]
  split_ifs <;> rfl

/-- Adding regions only appends: the new region list extends the old. -/
theorem addRegions_prefix (n : Nat) (ch cw : Int) (st : BuildState)
    (excl : List Rect) :
    ∃ new, (addRegions n ch cw st excl).regions = st.regions ++ new := by
  induction excl generalizing st with
  | nil => exact ⟨[], by simp [addRegions]⟩
  | cons ra excl ih =>
    rw [addRegions_cons]
    split_ifs
    · exact ih st
    · obtain ⟨new, hnew⟩ := ih
        { st with
          regions := st.regions ++ [mkRegion ch cw ra st.label_offset]
          label_offset := st.label_offset +
            (mkRegion ch cw ra st.label_offset).num_labels }
      rw [hnew]
      exact ⟨mkRegion ch cw ra st.label_offset :: new, by simp⟩

/-- Every region after `addRegions` is an old one or has one of the
exclusive sub-rectangles as its area (with the creation offset). -/
theorem addRegions_mem (n : Nat) (ch cw : Int) (st : BuildState)
    (excl : List Rect) (r : TileRegion)
    (hr : r ∈ (addRegions n ch cw st excl).regions) :
    r ∈ st.regions ∨
      ∃ ra ∈ excl, ∃ off, r = mkRegion ch cw ra off ∧ 0 < ra.w ∧ 0 < ra.h := by
  induction excl generalizing st with
  | nil => exact Or.inl hr
  | cons ra excl ih =>
    rw [addRegions_cons] at hr
    split_ifs at hr with hskip
    · rcases ih st hr with h | ⟨ra', hra', off, heq⟩
      · exact Or.inl h
      · exact Or.inr ⟨ra', List.mem_cons_of_mem _ hra', off, heq⟩
    · push_neg at hskip
      rcases ih _ hr with h | ⟨ra', hra', off, heq⟩
      · rcases List.mem_append.mp h with h' | h'
        · exact Or.inl h'
        · rw [List.mem_singleton] at h'
          exact Or.inr ⟨ra, List.mem_cons_self _ _,
            st.label_offset, h', hskip.1, hskip.2.1⟩
      · exact Or.inr ⟨ra', List.mem_cons_of_mem _ hra', off, heq⟩

theorem addRegions_contig (n : Nat) (ch cw : Int) (st : BuildState)
    (excl : List Rect)
    (hcontig : ContigFrom 0 st.regions)
    (hoff : st.label_offset = sumLabels st.regions) :
    ContigFrom 0 (addRegions n ch cw st excl).regions ∧
      (addRegions n ch cw st excl).label_offset =
        sumLabels (addRegions n ch cw st excl).regions := by
  induction excl generalizing st with
  | nil => exact ⟨hcontig, hoff⟩
  | cons ra excl ih =>
    rw [addRegions, List.foldl_cons]
    split_ifs with hskip
    · exact ih st hcontig hoff
    · refine ih _ ?_ ?_
      · exact contigFrom_append 0 st.regions _ hcontig (by simp [mkRegion, hoff])
      · simp only [sumLabels_append]
        omega

theorem addRegions_length (n : Nat) (ch cw : Int) (st : BuildState)
    (excl : List Rect) :
    (addRegions n ch cw st excl).regions.length ≤
      st.regions.length + excl.length := by
  induction excl generalizing st with
  | nil => simp [addRegions]
  | cons ra excl ih =>
    rw [addRegions_cons]
    split_ifs
    · have := ih st
      simp only [List.length_cons]
      omega
    · have := ih
        { st with
          regions := st.regions ++ [mkRegion ch cw ra st.label_offset]
          label_offset := st.label_offset +
            (mkRegion ch cw ra st.label_offset).num_labels }
      simp only [List.length_append, List.length_singleton,
        List.length_cons, List.length_nil] at this ⊢
      omega

/-- When the region arena never fills up, every pixel of the exclusive
set ends up inside some created region. -/
theorem addRegions_covers (n : Nat) (ch cw : Int) (st : BuildState)
    (excl : List Rect)
    (hcap : st.regions.length + excl.length ≤ n * MAX_PENDING_RECTS)
    (px py : Int) (hin : inList excl px py) :
    ∃ r ∈ (addRegions n ch cw st excl).regions, inRect r.area px py := by
  induction excl generalizing st with
  | nil => exact absurd hin (by simp [inList])
  | cons ra excl ih =>
    rw [addRegions_cons]
    obtain ⟨e, he, hpe⟩ := hin
    simp only [List.length_cons] at hcap
    rcases List.mem_cons.mp he with rfl | he'
    · have hpos : 0 < e.w ∧ 0 < e.h := by
        unfold inRect at hpe
        omega
      rw [if_neg (by push_neg; exact ⟨by omega, by omega, by omega⟩)]
      obtain ⟨new, hnew⟩ := addRegions_prefix n ch cw
        { st with regions := st.regions ++ [mkRegion ch cw e st.label_offset],
                  label_offset := st.label_offset +
                    (mkRegion ch cw e st.label_offset).num_labels } excl
      refine ⟨mkRegion ch cw e st.label_offset, ?_, ?_⟩
      · rw [hnew]
        exact List.mem_append_left _ (by simp)
      · simpa [mkRegion] using hpe
    · split_ifs
      · exact ih st (by omega) ⟨e, he', hpe⟩
      · refine ih
          { st with
            regions := st.regions ++ [mkRegion ch cw ra st.label_offset]
            label_offset := st.label_offset +
              (mkRegion ch cw ra st.label_offset).num_labels }
          ?_ ⟨e, he', hpe⟩
        simp only [List.length_append, List.length_singleton]
        omega

/-- The regions appended by `addRegions` have, in order, areas forming a
sublist of the exclusive rectangles (some may be skipped). -/
theorem addRegions_new_areas (n : Nat) (ch cw : Int) (st : BuildState)
    (excl : List Rect) :
    ∃ new, (addRegions n ch cw st excl).regions = st.regions ++ new ∧
      (new.map TileRegion.area).Sublist excl := by
  induction excl generalizing st with
  | nil => exact ⟨[], by simp [addRegions], by simp⟩
  | cons ra excl ih =>
    rw [addRegions_cons]
    split_ifs
    · obtain ⟨new, h1, h2⟩ := ih st
      exact ⟨new, h1, h2.cons ra⟩
    · obtain ⟨new, h1, h2⟩ := ih
        { st with
          regions := st.regions ++ [mkRegion ch cw ra st.label_offset]
          label_offset := st.label_offset +
            (mkRegion ch cw ra st.label_offset).num_labels }
      refine ⟨mkRegion ch cw ra st.label_offset :: new, by simpa using h1, ?_⟩
      rw [List.map_cons]
      exact List.Sublist.cons₂ ra (by simpa [mkRegion] using h2)

theorem processOutput_processed (n : Nat) (ch cw : Int) (st : BuildState)
    (o : Rect) :
    (processOutput n ch cw st o).processed = st.processed ++ [o] := by
  simp [processOutput, addRegions_processed]

theorem processOutput_regions (n : Nat) (ch cw : Int) (st : BuildState)
    (o : Rect) :
    (processOutput n ch cw st o).regions =
      (addRegions n ch cw st (passFold st.processed [o])).regions := rfl

theorem build_go_processed (n : Nat) (ch cw : Int) (rest : List Rect)
    (st : BuildState) :
    (rest.foldl (processOutput n ch cw) st).processed = st.processed ++ rest := by
  induction rest generalizing st with
  | nil => simp
  | cons o rest ih =>
    rw [List.foldl_cons, ih, processOutput_processed]
    simp

theorem build_go_contig (n : Nat) (ch cw : Int) (rest : List Rect)
    (st : BuildState)
    (h1 : ContigFrom 0 st.regions)
    (h2 : st.label_offset = sumLabels st.regions) :
    ContigFrom 0 (rest.foldl (processOutput n ch cw) st).regions ∧
      (rest.foldl (processOutput n ch cw) st).label_offset =
        sumLabels (rest.foldl (processOutput n ch cw) st).regions := by
  induction rest generalizing st with
  | nil => exact ⟨h1, h2⟩
  | cons o rest ih =>
    rw [List.foldl_cons]
    have hstep := addRegions_contig n ch cw st (passFold st.processed [o]) h1 h2
    exact ih _ hstep.1 hstep.2

theorem build_go_good (n : Nat) (ch cw : Int) (rest : List Rect)
    (st : BuildState) (hch : 1 ≤ ch) (hcw : 1 ≤ cw)
    (h : ∀ r ∈ st.regions, GoodRegion r) :
    ∀ r ∈ (rest.foldl (processOutput n ch cw) st).regions, GoodRegion r := by
  induction rest generalizing st with
  | nil => exact h
  | cons o rest ih =>
    rw [List.foldl_cons]
    refine ih _ ?_
    intro r hr
    rcases addRegions_mem n ch cw st _ r hr with hold | ⟨ra, _, off, rfl, hw, hh⟩
    · exact h r hold
    · exact mkRegion_good ch cw ra off hch hcw hw hh

theorem build_go_length (n : Nat) (ch cw : Int) (rest : List Rect)
    (st : BuildState)
    (h : st.regions.length ≤ MAX_PENDING_RECTS * st.processed.length) :
    (rest.foldl (processOutput n ch cw) st).regions.length ≤
      MAX_PENDING_RECTS *
        (rest.foldl (processOutput n ch cw) st).processed.length := by
  induction rest generalizing st with
  | nil => exact h
  | cons o rest ih =>
    rw [List.foldl_cons]
    refine ih _ ?_
    rw [processOutput_processed, processOutput_regions]
    have hexcl : (passFold st.processed [o]).length ≤ MAX_PENDING_RECTS :=
      passFold_length _ _ (by simp [MAX_PENDING_RECTS])
    have hadd := addRegions_length n ch cw st (passFold st.processed [o])
    simp only [List.length_append, List.length_singleton]
    have : MAX_PENDING_RECTS * (st.processed.length + 1) =
        MAX_PENDING_RECTS * st.processed.length + MAX_PENDING_RECTS := by ring
    omega

theorem build_go_disjoint (n : Nat) (ch cw : Int) (rest : List Rect)
    (st : BuildState)
    (hpw : (st.regions.map TileRegion.area).Pairwise RDisj)
    (hsub : ∀ r ∈ st.regions, ∀ px py,
      inRect r.area px py → inList st.processed px py) :
    ((rest.foldl (processOutput n ch cw) st).regions.map
        TileRegion.area).Pairwise RDisj ∧
      ∀ r ∈ (rest.foldl (processOutput n ch cw) st).regions, ∀ px py,
        inRect r.area px py →
          inList (rest.foldl (processOutput n ch cw) st).processed px py := by
  induction rest generalizing st with
  | nil => exact ⟨hpw, hsub⟩
  | cons o rest ih =>
    rw [List.foldl_cons]
    obtain ⟨new, hnew, hsubl⟩ := addRegions_new_areas n ch cw st
      (passFold st.processed [o])
    have hexclPW : (passFold st.processed [o]).Pairwise RDisj :=
      passFold_pairwise _ _ (List.pairwise_singleton _ _)
    have hnewIn : ∀ e ∈ new.map TileRegion.area, ∀ px py, inRect e px py →
        inRect o px py ∧ ∀ q ∈ st.processed, ¬ inRect q px py := by
      intro e he px py hp
      have he' := hsubl.mem he
      have := passFold_mem_subset st.processed [o] e he' px py hp
      obtain ⟨⟨r0, hr0, hin⟩, hout⟩ := this
      rw [List.mem_singleton] at hr0
      subst hr0
      exact ⟨hin, hout⟩
    refine ih _ ?_ ?_
    · rw [processOutput_regions, hnew, List.map_append, List.pairwise_append]
      refine ⟨hpw, List.Pairwise.sublist hsubl hexclPW, ?_⟩
      intro ra hra e he
      intro px py hpa hpe
      obtain ⟨rold, hrold, hraeq⟩ := List.mem_map.mp hra
      obtain ⟨q, hq, hqin⟩ := hsub rold hrold px py (hraeq ▸ hpa)
      exact (hnewIn e he px py hpe).2 q hq hqin
    · intro r hr px py hp
      rw [processOutput_processed]
      rw [processOutput_regions, hnew] at hr
      rcases List.mem_append.mp hr with hold | hnewr
      · obtain ⟨q, hq, hqin⟩ := hsub r hold px py hp
        exact ⟨q, List.mem_append_left _ hq, hqin⟩
      · have : r.area ∈ new.map TileRegion.area := List.mem_map_of_mem _ hnewr
        exact ⟨o, List.mem_append_right _ (List.mem_singleton_self o),
          (hnewIn r.area this px py hp).1⟩

/-- No ping-pong pass across the whole build overflows the
pending-rectangle budget (so no fragment is ever silently dropped). -/
def buildOKAux : List Rect → List Rect → Bool
  | _, [] => true
  | processed, o :: rest =>
    passFoldOK processed [o] && buildOKAux (processed ++ [o]) rest

/-- Overflow freedom of the whole multi-output build. -/
def buildOK (outputs : List Rect) : Bool := buildOKAux [] outputs

theorem build_go_covers (n : Nat) (ch cw : Int) (rest : List Rect)
    (st : BuildState)
    (hOK : buildOKAux st.processed rest = true)
    (hlen : st.regions.length ≤ MAX_PENDING_RECTS * st.processed.length)
    (hn : st.processed.length + rest.length ≤ n)
    (hcov : ∀ px py, inList st.processed px py →
      ∃ r ∈ st.regions, inRect r.area px py) :
    ∀ px py,
      inList (rest.foldl (processOutput n ch cw) st).processed px py →
        ∃ r ∈ (rest.foldl (processOutput n ch cw) st).regions,
          inRect r.area px py := by
  induction rest generalizing st with
  | nil => exact hcov
  | cons o rest ih =>
    rw [List.foldl_cons]
    rw [buildOKAux, Bool.and_eq_true] at hOK
    have hexcl : (passFold st.processed [o]).length ≤ MAX_PENDING_RECTS :=
      passFold_length _ _ (by simp [MAX_PENDING_RECTS])
    have hadd := addRegions_length n ch cw st (passFold st.processed [o])
    have hmul : MAX_PENDING_RECTS * (st.processed.length + 1) =
        MAX_PENDING_RECTS * st.processed.length + MAX_PENDING_RECTS := by ring
    simp only [List.length_cons] at hn
    refine ih _ ?_ ?_ ?_ ?_
    · rw [processOutput_processed]
      exact hOK.2
    · rw [processOutput_processed, processOutput_regions]
      simp only [List.length_append, List.length_singleton]
      omega
    · rw [processOutput_processed]
      simp only [List.length_append, List.length_singleton]
      omega
    · intro px py hin
      rw [processOutput_processed] at hin
      rw [processOutput_regions]
      obtain ⟨new, hnew, -⟩ := addRegions_new_areas n ch cw st
        (passFold st.processed [o])
      by_cases hdone : inList st.processed px py
      · obtain ⟨r, hr, hrin⟩ := hcov px py hdone
        exact ⟨r, by rw [hnew]; exact List.mem_append_left _ hr, hrin⟩
      · have hino : inRect o px py := by
          obtain ⟨q, hq, hqin⟩ := hin
          rcases List.mem_append.mp hq with hq' | hq'
          · exact absurd ⟨q, hq', hqin⟩ hdone
          · rwa [List.mem_singleton.mp hq'] at hqin
        have hinExcl : inList (passFold st.processed [o]) px py := by
          rw [passFold_inList st.processed [o] px py hOK.1]
          refine ⟨⟨o, List.mem_singleton_self o, hino⟩, ?_⟩
          intro q hq hqin
          exact hdone ⟨q, hq, hqin⟩
        refine addRegions_covers n ch cw st _ ?_ px py hinExcl
        have hstep : st.processed.length + 1 ≤ n := by omega
        calc st.regions.length + (passFold st.processed [o]).length
            ≤ MAX_PENDING_RECTS * st.processed.length + MAX_PENDING_RECTS := by
              omega
          _ = MAX_PENDING_RECTS * (st.processed.length + 1) := by ring
          _ ≤ MAX_PENDING_RECTS * n := by
              exact Nat.mul_le_mul_left _ hstep
          _ = n * MAX_PENDING_RECTS := by ring

theorem buildRegions_processed (ch cw : Int) (outputs : List Rect) :
    (buildRegions ch cw outputs).processed = outputs := by
  rw [buildRegions, build_go_processed]
  simp

theorem buildRegions_contig (ch cw : Int) (outputs : List Rect) :
    ContigFrom 0 (buildRegions ch cw outputs).regions ∧
      (buildRegions ch cw outputs).label_offset =
        sumLabels (buildRegions ch cw outputs).regions :=
  build_go_contig outputs.length ch cw outputs _ trivial (by simp [sumLabels])

theorem buildRegions_good (ch cw : Int) (outputs : List Rect)
    (hch : 1 ≤ ch) (hcw : 1 ≤ cw) :
    ∀ r ∈ (buildRegions ch cw outputs).regions, GoodRegion r :=
  build_go_good outputs.length ch cw outputs _ hch hcw (by simp)

theorem buildRegions_disjoint (ch cw : Int) (outputs : List Rect) :
    ((buildRegions ch cw outputs).regions.map TileRegion.area).Pairwise RDisj ∧
      ∀ r ∈ (buildRegions ch cw outputs).regions, ∀ px py,
        inRect r.area px py → inList outputs px py := by
  have h := build_go_disjoint outputs.length ch cw outputs
    { regions := [], processed := [], label_offset := 0 }
    (by simp) (by simp)
  refine ⟨h.1, ?_⟩
  intro r hr px py hp
  have h2 := h.2 r hr px py hp
  rwa [build_go_processed, List.nil_append] at h2

theorem buildRegions_covers (ch cw : Int) (outputs : List Rect)
    (hOK : buildOK outputs = true) :
    ∀ px py, inList outputs px py →
      ∃ r ∈ (buildRegions ch cw outputs).regions, inRect r.area px py := by
  intro px py hin
  refine build_go_covers outputs.length ch cw outputs
    { regions := [], processed := [], label_offset := 0 }
    hOK (by simp) (by simp) ?_ px py ?_
  · intro px' py' h
    simp [inList] at h
  · rw [build_go_processed, List.nil_append]
    exact hin

theorem cell_lower (cw off c : Int) (hcw : 1 ≤ cw) (hoff : 0 ≤ off)
    (hc : 0 ≤ c) : 0 ≤ c * cw + min c off := by
  have := mul_nonneg hc (show (0:Int) ≤ cw by omega)
  omega

theorem cell_mono (cw off : Int) (hcw : 1 ≤ cw) (hoff : 0 ≤ off)
    (c c' : Int) (h : c < c') :
    c * cw + min c off < c' * cw + min c' off := by
  have h1 : (c + 1) * cw ≤ c' * cw :=
    mul_le_mul_of_nonneg_right (by omega) (by omega)
  have h2 : min c off ≤ min c' off := by omega
  nlinarith [h1, h2, hcw]

theorem cell_upper (cw off cols c : Int) (hcw : 1 ≤ cw) (hoff0 : 0 ≤ off)
    (hoffc : off < cols) (hc0 : 0 ≤ c) (hc : c < cols) :
    c * cw + min c off + (cw + (if c < off then 1 else 0)) ≤ cols * cw + off := by
  have h1 : (c + 1) * cw ≤ cols * cw :=
    mul_le_mul_of_nonneg_right (by omega) (by omega)
  by_cases h : c < off
  · rw [if_pos h, min_eq_left (by omega)]
    nlinarith [h1]
  · rw [if_neg h, min_eq_right (by omega)]
    nlinarith [h1]

/-- A good region has at least one label. -/
theorem GoodRegion.one_le_num (r : TileRegion) (hg : GoodRegion r) :
    1 ≤ r.num_labels := by
  obtain ⟨-, -, hrows, hcols, -, -, -, -, -, -, -, -, hnum⟩ := hg
  nlinarith [hrows, hcols, hnum]

/-- Every cell rectangle has positive dimensions. -/
theorem regionRect_pos (r : TileRegion) (hg : GoodRegion r) (li : Int) :
    0 < (regionRect r li).w ∧ 0 < (regionRect r li).h := by
  obtain ⟨-, -, -, -, hch, hcw, -⟩ := hg
  simp only [regionRect]
  split_ifs <;> omega

/-- Every cell rectangle lies inside its region's area. -/
theorem regionRect_inside (r : TileRegion) (hg : GoodRegion r) (li : Int)
    (h0 : 0 ≤ li) (h1 : li < r.num_labels) :
    ∀ px py, inRect (regionRect r li) px py → inRect r.area px py := by
  obtain ⟨hw, hh, hrows, hcols, hch, hcw, hho0, hhor, hwo0, hwoc, hidh, hidw,
    hnum⟩ := hg
  intro px py hp
  simp only [regionRect, inRect] at hp ⊢
  have hrowpos : (0:Int) < r.rows := by omega
  have hcol0 : 0 ≤ li.tdiv r.rows := Int.tdiv_nonneg h0 (by omega)
  have hcolc : li.tdiv r.rows < r.cols :=
    tdiv_lt_of_lt_mul li r.rows r.cols h0 hrowpos (by rw [hnum] at h1; linarith)
  have hrow0 : 0 ≤ li.tmod r.rows := Int.tmod_nonneg _ h0
  have hrowr : li.tmod r.rows < r.rows := Int.tmod_lt_of_pos _ hrowpos
  have hxlow := cell_lower r.cell_w r.cell_w_off (li.tdiv r.rows) hcw hwo0 hcol0
  have hxup := cell_upper r.cell_w r.cell_w_off r.cols (li.tdiv r.rows)
    hcw hwo0 hwoc hcol0 hcolc
  have hylow := cell_lower r.cell_h r.cell_h_off (li.tmod r.rows) hch hho0 hrow0
  have hyup := cell_upper r.cell_h r.cell_h_off r.rows (li.tmod r.rows)
    hch hho0 hhor hrow0 hrowr
  have hcomm : r.cols * r.cell_w = r.cell_w * r.cols := mul_comm _ _
  have hcomm2 : r.rows * r.cell_h = r.cell_h * r.rows := mul_comm _ _
  refine ⟨by linarith, by linarith, by linarith, by linarith⟩

/-- Distinct local indices within one region yield distinct cells. -/
theorem regionRect_inj (r : TileRegion) (hg : GoodRegion r) (li li' : Int)
    (h0 : 0 ≤ li) (h1 : li < r.num_labels)
    (h0' : 0 ≤ li') (h1' : li' < r.num_labels)
    (hne : li ≠ li') : regionRect r li ≠ regionRect r li' := by
  obtain ⟨hw, hh, hrows, hcols, hch, hcw, hho0, hhor, hwo0, hwoc, hidh, hidw,
    hnum⟩ := hg
  intro heq
  have hx := congrArg Rect.x heq
  have hy := congrArg Rect.y heq
  simp only [regionRect] at hx hy
  have hrowpos : (0:Int) < r.rows := by omega
  have hidli := Int.tdiv_add_tmod li r.rows
  have hidli' := Int.tdiv_add_tmod li' r.rows
  rcases lt_trichotomy (li.tdiv r.rows) (li'.tdiv r.rows) with hc | hc | hc
  · have := cell_mono r.cell_w r.cell_w_off hcw hwo0 _ _ hc
    linarith
  · have hrne : li.tmod r.rows ≠ li'.tmod r.rows := by
      intro hre
      apply hne
      rw [hc] at hidli
      rw [hre] at hidli
      linarith
    rcases lt_or_gt_of_ne hrne with hr | hr
    · have := cell_mono r.cell_h r.cell_h_off hch hho0 _ _ hr
      linarith
    · have := cell_mono r.cell_h r.cell_h_off hch hho0 _ _ hr
      linarith
  · have := cell_mono r.cell_w r.cell_w_off hcw hwo0 _ _ hc
    linarith

theorem sumLabels_cons (r : TileRegion) (rs : List TileRegion) :
    sumLabels (r :: rs) = r.num_labels + sumLabels rs := by
  simp [sumLabels]

/-- A rectangle with positive dimensions contains its own corner. -/
theorem inRect_corner (r : Rect) (hw : 0 < r.w) (hh : 0 < r.h) :
    inRect r r.x r.y := by
  unfold inRect
  omega

/-- Soundness of the key-handler scan: a resolved rectangle comes from a
region whose range contains the index, equals the column-major cell, and
is contained in that region's area. -/
theorem resolveRect_sound (rs : List TileRegion) (g : Int) (rect : Rect)
    (hgood : ∀ r ∈ rs, GoodRegion r)
    (h : resolveRect rs g = some rect) :
    ∃ r ∈ rs, r.label_offset ≤ g ∧ g < r.label_offset + r.num_labels ∧
      rect = regionRect r (g - r.label_offset) ∧
      (∀ px py, inRect rect px py → inRect r.area px py) ∧
      0 < rect.w ∧ 0 < rect.h := by
  induction rs with
  | nil => simp [resolveRect] at h
  | cons r rs ih =>
    rw [resolveRect] at h
    split_ifs at h with hcond
    · obtain ⟨r', hr', hrest⟩ :=
        ih (fun r' hr' => hgood r' (List.mem_cons_of_mem _ hr')) h
      exact ⟨r', List.mem_cons_of_mem _ hr', hrest⟩
    · push_neg at hcond
      have hg := hgood r (List.mem_cons_self _ _)
      injection h with h
      subst h
      refine ⟨r, List.mem_cons_self _ _, hcond.1, by omega, rfl, ?_,
        regionRect_pos r hg _⟩
      exact regionRect_inside r hg _ (by omega) (by omega)

/-- The reverse resolution agrees with the forward rendering traversal:
for contiguous regions starting at `o`, index `g` resolves to exactly
the `(g - o)`-th rectangle of the render enumeration. -/
theorem resolveRect_eq_get (rs : List TileRegion) (o g : Int)
    (hcontig : ContigFrom o rs)
    (hpos : ∀ r ∈ rs, 1 ≤ r.num_labels)
    (hg0 : o ≤ g) (hg1 : g < o + sumLabels rs) :
    resolveRect rs g = (renderRects rs)[(g - o).toNat]? := by
  induction rs generalizing o with
  | nil =>
    rw [show sumLabels [] = 0 from by simp [sumLabels]] at hg1
    omega
  | cons r rs ih =>
    obtain ⟨hoff, hrest⟩ := hcontig
    have hposr := hpos r (List.mem_cons_self _ _)
    have hsum := sumLabels_cons r rs
    rw [resolveRect, renderRects]
    by_cases hcase : g < r.label_offset + r.num_labels
    · rw [if_neg (by omega)]
      have hlen : (g - o).toNat <
          ((List.range r.num_labels.toNat).map
            (fun (li : Nat) => regionRect r (li : Int))).length := by
        simp only [List.length_map, List.length_range]
        omega
      rw [List.getElem?_append_left hlen, List.getElem?_map,
        List.getElem?_range (by simp only [List.length_map, List.length_range] at hlen; omega)]
      simp only [Option.map_some']
      rw [hoff, show (((g - o).toNat : Nat) : Int) = g - o from by omega]
    · rw [if_pos (by omega)]
      have hlen : ((List.range r.num_labels.toNat).map
          (fun (li : Nat) => regionRect r (li : Int))).length ≤ (g - o).toNat := by
        simp only [List.length_map, List.length_range]
        omega
      rw [List.getElem?_append_right hlen]
      have hrec := ih (o + r.num_labels) hrest
        (fun r' h' => hpos r' (List.mem_cons_of_mem _ h'))
        (by omega) (by omega)
      rw [hrec]
      congr 1
      simp only [List.length_map, List.length_range]
      omega

/-- Distinct global indices resolve to distinct rectangles. -/
theorem resolveRect_inj (rs : List TileRegion) (g g' : Int) (rect rect' : Rect)
    (hgood : ∀ r ∈ rs, GoodRegion r)
    (hpw : (rs.map TileRegion.area).Pairwise RDisj)
    (hne : g ≠ g')
    (h : resolveRect rs g = some rect) (h' : resolveRect rs g' = some rect') :
    rect ≠ rect' := by
  induction rs with
  | nil => simp [resolveRect] at h
  | cons r rs ih =>
    rw [List.map_cons, List.pairwise_cons] at hpw
    have hgr := hgood r (List.mem_cons_self _ _)
    have hgood' := fun r' hr' => hgood r' (List.mem_cons_of_mem _ hr')
    rw [resolveRect] at h h'
    by_cases hc : g < r.label_offset ∨ r.label_offset + r.num_labels ≤ g <;>
      by_cases hc' : g' < r.label_offset ∨ r.label_offset + r.num_labels ≤ g' <;>
      [rw [if_pos hc] at h; rw [if_pos hc] at h; rw [if_neg hc] at h;
        rw [if_neg hc] at h] <;>
      [rw [if_pos hc'] at h'; rw [if_neg hc'] at h'; rw [if_pos hc'] at h';
        rw [if_neg hc'] at h']
    · exact ih hgood' hpw.2 h h'
    · -- g resolves in the tail, g' in the head region
      push_neg at hc'
      obtain ⟨r'', hr'', -, -, -, hsub, hwpos, hhpos⟩ :=
        resolveRect_sound rs g rect hgood' h
      injection h' with h'
      subst h'
      intro heq
      have hcorner := inRect_corner rect hwpos hhpos
      have hin1 := hsub rect.x rect.y hcorner
      have hin2 := regionRect_inside r hgr (g' - r.label_offset)
        (by omega) (by omega) rect.x rect.y (heq ▸ hcorner)
      exact hpw.1 r''.area (List.mem_map_of_mem _ hr'') rect.x rect.y hin2 hin1
    · -- g resolves in the head region, g' in the tail
      push_neg at hc
      obtain ⟨r'', hr'', -, -, -, hsub, hwpos, hhpos⟩ :=
        resolveRect_sound rs g' rect' hgood' h'
      injection h with h
      subst h
      intro heq
      have hcorner := inRect_corner rect' hwpos hhpos
      have hin1 := hsub rect'.x rect'.y hcorner
      have hin2 := regionRect_inside r hgr (g - r.label_offset)
        (by omega) (by omega) rect'.x rect'.y (heq ▸ hcorner)
      exact hpw.1 r''.area (List.mem_map_of_mem _ hr'') rect'.x rect'.y hin2 hin1
    · -- both in the head region
      push_neg at hc hc'
      injection h with h
      injection h' with h'
      subst h
      subst h'
      exact regionRect_inj r hgr (g - r.label_offset) (g' - r.label_offset)
        (by omega) (by omega) (by omega) (by omega) (by omega)

theorem cSqrtHalf_ge (x : Int) (hx : MIN_SUB_AREA_SIZE ≤ x) :
    25 ≤ cSqrtHalf x := by
  have hx' : (1250 : Int) ≤ x := by simpa [MIN_SUB_AREA_SIZE] using hx
  have hid := Int.tdiv_add_tmod x 2
  have h1 := Int.tmod_lt_of_pos x (show (0:Int) < 2 by omega)
  have h2 := Int.tmod_nonneg 2 (show (0:Int) ≤ x by omega)
  have hq : (625 : Int) ≤ x.tdiv 2 := by omega
  have hqn : (625 : Nat) ≤ (x.tdiv 2).toNat := by omega
  have hs := isqrt_spec (x.tdiv 2).toNat
  have h25 : (25 : Nat) ≤ isqrt (x.tdiv 2).toNat := by nlinarith [hs.1, hs.2]
  unfold cSqrtHalf
  omega

theorem cSqrtDouble_ge (x : Int) (hx : MIN_SUB_AREA_SIZE ≤ x) :
    50 ≤ cSqrtDouble x := by
  have hx' : (1250 : Int) ≤ x := by simpa [MIN_SUB_AREA_SIZE] using hx
  have hq : (2500 : Int) ≤ x * 2 := by omega
  have hqn : (2500 : Nat) ≤ (x * 2).toNat := by omega
  have hs := isqrt_spec (x * 2).toNat
  have h50 : (50 : Nat) ≤ isqrt (x * 2).toNat := by nlinarith [hs.1, hs.2]
  unfold cSqrtDouble
  omega

/-- The grid facts the flat single-output sizing establishes. -/
def GoodFlat (g : FlatGrid) (area : Rect) : Prop :=
  1 ≤ g.sub_area_rows ∧ 1 ≤ g.sub_area_columns ∧
  1 ≤ g.sub_area_height ∧ 1 ≤ g.sub_area_width ∧
  0 ≤ g.sub_area_height_off ∧ g.sub_area_height_off < g.sub_area_rows ∧
  0 ≤ g.sub_area_width_off ∧ g.sub_area_width_off < g.sub_area_columns ∧
  g.sub_area_height * g.sub_area_rows + g.sub_area_height_off = area.h ∧
  g.sub_area_width * g.sub_area_columns + g.sub_area_width_off = area.w

/-- One axis of the flat sizing: divide by the aspect-biased cell size,
clamp the count to at least one, and redistribute the remainder. -/
theorem axis_good (len d : Int) (hlen : 0 < len) (hd : 0 < d) :
    1 ≤ (if len.tdiv d = 0 then 1 else len.tdiv d) ∧
    (if len.tdiv d = 0 then 1 else len.tdiv d) ≤ len ∧
    1 ≤ len.tdiv (if len.tdiv d = 0 then 1 else len.tdiv d) ∧
    0 ≤ len.tmod (if len.tdiv d = 0 then 1 else len.tdiv d) ∧
    len.tmod (if len.tdiv d = 0 then 1 else len.tdiv d) <
      (if len.tdiv d = 0 then 1 else len.tdiv d) ∧
    len.tdiv (if len.tdiv d = 0 then 1 else len.tdiv d) *
        (if len.tdiv d = 0 then 1 else len.tdiv d) +
      len.tmod (if len.tdiv d = 0 then 1 else len.tdiv d) = len := by
  have h0 : 0 ≤ len.tdiv d := Int.tdiv_nonneg (by omega) (by omega)
  have hle : len.tdiv d ≤ len := tdiv_le_self_of_pos len d (by omega) (by omega)
  have hc1 : 1 ≤ (if len.tdiv d = 0 then 1 else len.tdiv d) := by
    split_ifs <;> omega
  have hcle : (if len.tdiv d = 0 then 1 else len.tdiv d) ≤ len := by
    split_ifs <;> omega
  refine ⟨hc1, hcle, ?_, ?_, ?_, ?_⟩
  · exact one_le_tdiv len _ (by omega) hcle
  · exact Int.tmod_nonneg _ (by omega)
  · exact Int.tmod_lt_of_pos _ (by omega)
  · have := Int.tdiv_add_tmod len (if len.tdiv d = 0 then 1 else len.tdiv d)
    linarith [this,
      mul_comm (if len.tdiv d = 0 then 1 else len.tdiv d)
        (len.tdiv (if len.tdiv d = 0 then 1 else len.tdiv d))]

theorem flatGrid_good (area : Rect) (hw : 0 < area.w) (hh : 0 < area.h) :
    GoodFlat (flatGrid area) area := by
  have hsize : MIN_SUB_AREA_SIZE ≤
      max ((area.w * area.h).tdiv max_num_sub_areas) MIN_SUB_AREA_SIZE :=
    le_max_right _ _
  have hh0 : (0:Int) < cSqrtHalf
      (max ((area.w * area.h).tdiv max_num_sub_areas) MIN_SUB_AREA_SIZE) := by
    have := cSqrtHalf_ge _ hsize
    omega
  have hw0 : (0:Int) < cSqrtDouble
      (max ((area.w * area.h).tdiv max_num_sub_areas) MIN_SUB_AREA_SIZE) := by
    have := cSqrtDouble_ge _ hsize
    omega
  have hv := axis_good area.h _ hh hh0
  have hu := axis_good area.w _ hw hw0
  exact ⟨hv.1, hu.1, hv.2.2.1, hu.2.2.1, hv.2.2.2.1, hv.2.2.2.2.1,
    hu.2.2.2.1, hu.2.2.2.2.1, hv.2.2.2.2.2, hu.2.2.2.2.2⟩

/-- Every flat cell rectangle has positive dimensions. -/
theorem idx_to_rect_pos (g : FlatGrid) (area : Rect) (hgf : GoodFlat g area)
    (idx x_off y_off : Int) :
    0 < (idx_to_rect g idx x_off y_off).w ∧
      0 < (idx_to_rect g idx x_off y_off).h := by
  obtain ⟨hrows, hcols, hch, hcw, hho0, hhor, hwo0, hwoc, hidh, hidw⟩ := hgf
  simp only [idx_to_rect]
  split_ifs <;> omega

/-- Every flat cell rectangle lies inside the bounding area. -/
theorem idx_to_rect_inside (g : FlatGrid) (area : Rect) (hgf : GoodFlat g area)
    (idx : Int) (h0 : 0 ≤ idx)
    (h1 : idx < g.sub_area_rows * g.sub_area_columns) :
    ∀ px py, inRect (idx_to_rect g idx area.x area.y) px py →
      inRect area px py := by
  obtain ⟨hrows, hcols, hch, hcw, hho0, hhor, hwo0, hwoc, hidh, hidw⟩ := hgf
  intro px py hp
  simp only [idx_to_rect, inRect] at hp ⊢
  have hrowpos : (0:Int) < g.sub_area_rows := by omega
  have hcol0 : 0 ≤ idx.tdiv g.sub_area_rows := Int.tdiv_nonneg h0 (by omega)
  have hcolc : idx.tdiv g.sub_area_rows < g.sub_area_columns :=
    tdiv_lt_of_lt_mul idx g.sub_area_rows g.sub_area_columns h0 hrowpos h1
  have hrow0 : 0 ≤ idx.tmod g.sub_area_rows := Int.tmod_nonneg _ h0
  have hrowr : idx.tmod g.sub_area_rows < g.sub_area_rows :=
    Int.tmod_lt_of_pos _ hrowpos
  have hxlow := cell_lower g.sub_area_width g.sub_area_width_off
    (idx.tdiv g.sub_area_rows) hcw hwo0 hcol0
  have hxup := cell_upper g.sub_area_width g.sub_area_width_off
    g.sub_area_columns (idx.tdiv g.sub_area_rows) hcw hwo0 hwoc hcol0 hcolc
  have hylow := cell_lower g.sub_area_height g.sub_area_height_off
    (idx.tmod g.sub_area_rows) hch hho0 hrow0
  have hyup := cell_upper g.sub_area_height g.sub_area_height_off
    g.sub_area_rows (idx.tmod g.sub_area_rows) hch hho0 hhor hrow0 hrowr
  have hcomm : g.sub_area_columns * g.sub_area_width =
      g.sub_area_width * g.sub_area_columns := mul_comm _ _
  have hcomm2 : g.sub_area_rows * g.sub_area_height =
      g.sub_area_height * g.sub_area_rows := mul_comm _ _
  refine ⟨by linarith, by linarith, by linarith, by linarith⟩

/-- Distinct flat indices yield distinct cells. -/
theorem idx_to_rect_inj (g : FlatGrid) (area : Rect) (hgf : GoodFlat g area)
    (idx idx' x_off y_off : Int) (hne : idx ≠ idx') :
    idx_to_rect g idx x_off y_off ≠ idx_to_rect g idx' x_off y_off := by
  obtain ⟨hrows, hcols, hch, hcw, hho0, hhor, hwo0, hwoc, hidh, hidw⟩ := hgf
  intro heq
  have hx := congrArg Rect.x heq
  have hy := congrArg Rect.y heq
  simp only [idx_to_rect] at hx hy
  have hrowpos : (0:Int) < g.sub_area_rows := by omega
  have hidli := Int.tdiv_add_tmod idx g.sub_area_rows
  have hidli' := Int.tdiv_add_tmod idx' g.sub_area_rows
  rcases lt_trichotomy (idx.tdiv g.sub_area_rows) (idx'.tdiv g.sub_area_rows)
    with hc | hc | hc
  · have := cell_mono g.sub_area_width g.sub_area_width_off hcw hwo0 _ _ hc
    linarith
  · have hrne : idx.tmod g.sub_area_rows ≠ idx'.tmod g.sub_area_rows := by
      intro hre
      apply hne
      rw [hc] at hidli
      rw [hre] at hidli
      linarith
    rcases lt_or_gt_of_ne hrne with hr | hr
    · have := cell_mono g.sub_area_height g.sub_area_height_off hch hho0 _ _ hr
      linarith
    · have := cell_mono g.sub_area_height g.sub_area_height_off hch hho0 _ _ hr
      linarith
  · have := cell_mono g.sub_area_width g.sub_area_width_off hcw hwo0 _ _ hc
    linarith

/-- Sum of one row of per-cell widths: `n` cells of base width `cw`, the
first `off` cells one pixel wider. -/
theorem sum_cells (n : Nat) (cw off : Int) (hoff0 : 0 ≤ off) :
    ((List.range n).map
      (fun (c : Nat) => cw + (if (c : Int) < off then 1 else 0))).sum =
      n * cw + min off n := by
  induction n with
  | zero => simpa using hoff0
  | succ n ih =>
    rw [List.range_succ, List.map_append, List.sum_append, ih]
    simp only [List.map_cons, List.map_nil, List.sum_cons, List.sum_nil,
      add_zero]
    have hc : ((n + 1 : Nat) : Int) = (n : Int) + 1 := by push_cast; ring
    rw [hc, add_mul, one_mul]
    split_ifs with h <;> omega

/-- Sum of the widths of one row of cells in a region. -/
def rowWidthSum (r : TileRegion) : Int :=
  ((List.range r.cols.toNat).map
    (fun (c : Nat) => r.cell_w + (if (c : Int) < r.cell_w_off then 1 else 0))).sum

/-- Sum of the heights of one column of cells in a region. -/
def colHeightSum (r : TileRegion) : Int :=
  ((List.range r.rows.toNat).map
    (fun (c : Nat) => r.cell_h + (if (c : Int) < r.cell_h_off then 1 else 0))).sum

/-- Sum of the widths of one row of cells in the flat grid. -/
def flatRowWidthSum (g : FlatGrid) : Int :=
  ((List.range g.sub_area_columns.toNat).map
    (fun (c : Nat) =>
      g.sub_area_width + (if (c : Int) < g.sub_area_width_off then 1 else 0))).sum

/-- Sum of the heights of one column of cells in the flat grid. -/
def flatColHeightSum (g : FlatGrid) : Int :=
  ((List.range g.sub_area_rows.toNat).map
    (fun (c : Nat) =>
      g.sub_area_height + (if (c : Int) < g.sub_area_height_off then 1 else 0))).sum

theorem rowWidthSum_eq (r : TileRegion) (hg : GoodRegion r) :
    rowWidthSum r = r.area.w := by
  obtain ⟨hw, hh, hrows, hcols, hch, hcw, hho0, hhor, hwo0, hwoc, hidh, hidw,
    hnum⟩ := hg
  rw [rowWidthSum, sum_cells _ _ _ hwo0]
  have hcast : ((r.cols.toNat : Nat) : Int) = r.cols := by omega
  rw [hcast]
  have : min r.cell_w_off r.cols = r.cell_w_off := by omega
  rw [this]
  linarith [mul_comm r.cols r.cell_w]

theorem colHeightSum_eq (r : TileRegion) (hg : GoodRegion r) :
    colHeightSum r = r.area.h := by
  obtain ⟨hw, hh, hrows, hcols, hch, hcw, hho0, hhor, hwo0, hwoc, hidh, hidw,
    hnum⟩ := hg
  rw [colHeightSum, sum_cells _ _ _ hho0]
  have hcast : ((r.rows.toNat : Nat) : Int) = r.rows := by omega
  rw [hcast]
  have : min r.cell_h_off r.rows = r.cell_h_off := by omega
  rw [this]
  linarith [mul_comm r.rows r.cell_h]

theorem flatRowWidthSum_eq (g : FlatGrid) (area : Rect) (hgf : GoodFlat g area) :
    flatRowWidthSum g = area.w := by
  obtain ⟨hrows, hcols, hch, hcw, hho0, hhor, hwo0, hwoc, hidh, hidw⟩ := hgf
  rw [flatRowWidthSum, sum_cells _ _ _ hwo0]
  have hcast : ((g.sub_area_columns.toNat : Nat) : Int) = g.sub_area_columns := by
    omega
  rw [hcast]
  have : min g.sub_area_width_off g.sub_area_columns = g.sub_area_width_off := by
    omega
  rw [this]
  linarith [mul_comm g.sub_area_columns g.sub_area_width]

theorem flatColHeightSum_eq (g : FlatGrid) (area : Rect) (hgf : GoodFlat g area) :
    flatColHeightSum g = area.h := by
  obtain ⟨hrows, hcols, hch, hcw, hho0, hhor, hwo0, hwoc, hidh, hidw⟩ := hgf
  rw [flatColHeightSum, sum_cells _ _ _ hho0]
  have hcast : ((g.sub_area_rows.toNat : Nat) : Int) = g.sub_area_rows := by omega
  rw [hcast]
  have : min g.sub_area_height_off g.sub_area_rows = g.sub_area_height_off := by
    omega
  rw [this]
  linarith [mul_comm g.sub_area_rows g.sub_area_height]

theorem multiCellSize_ge_one (outputs : List Rect) :
    1 ≤ (multiCellSize outputs).1 ∧ 1 ≤ (multiCellSize outputs).2 :=
  ⟨le_max_right _ _, le_max_right _ _⟩

theorem tile_mode_enter_invalid (running all_outputs : Bool)
    (surfaces : List (Option Rect)) (area : Rect) :
    tile_mode_enter running all_outputs surfaces false area =
      { running := false
        ms := { area := area, hasSymbols := false, labelSelection := none,
                hasRegions := false, regions := [], flat := emptyFlat } } := by
  rw [tile_mode_enter, if_pos rfl]

theorem tile_mode_enter_no_output (running : Bool)
    (surfaces : List (Option Rect)) (area : Rect)
    (hne : surfaces ≠ []) (hempty : surfaces.filterMap id = []) :
    tile_mode_enter running true surfaces true area =
      { running := false
        ms := { area := area, hasSymbols := true, labelSelection := none,
                hasRegions := false, regions := [], flat := emptyFlat } } := by
  rw [tile_mode_enter, if_neg (by simp), if_pos ⟨rfl, hne⟩]
  simp only [hempty, List.length_nil, if_pos]

theorem tile_mode_enter_multi (running : Bool)
    (surfaces : List (Option Rect)) (area : Rect)
    (hne : surfaces ≠ []) (hout : surfaces.filterMap id ≠ []) :
    tile_mode_enter running true surfaces true area =
      { running := running
        ms := { area := area, hasSymbols := true,
                labelSelection := some
                  (buildRegions (multiCellSize (surfaces.filterMap id)).1
                    (multiCellSize (surfaces.filterMap id)).2
                    (surfaces.filterMap id)).label_offset,
                hasRegions := true,
                regions := (buildRegions (multiCellSize (surfaces.filterMap id)).1
                  (multiCellSize (surfaces.filterMap id)).2
                  (surfaces.filterMap id)).regions,
                flat := emptyFlat } } := by
  rw [tile_mode_enter, if_neg (by simp), if_pos ⟨rfl, hne⟩]
  simp only []
  rw [if_neg (by simpa using hout)]

theorem tile_mode_enter_flat (running all_outputs : Bool)
    (surfaces : List (Option Rect)) (area : Rect)
    (hcond : ¬ (all_outputs = true ∧ surfaces ≠ [])) :
    tile_mode_enter running all_outputs surfaces true area =
      { running := running
        ms := { area := area, hasSymbols := true,
                labelSelection := some ((flatGrid area).sub_area_rows *
                  (flatGrid area).sub_area_columns),
                hasRegions := false, regions := [], flat := flatGrid area } } := by
  rw [tile_mode_enter, if_neg (by simp), if_neg hcond]

/-- C4: for all rectangles `a` and `b`: if their intersection is
degenerate, `rect_subtract` returns exactly `[a]`; otherwise it returns
up to four pairwise-disjoint rectangles (emitted by the fixed
left/right/top-middle/bottom-middle cross decomposition of
`rect_subtract_core`, each only when non-empty, hence with positive
dimensions), whose union is exactly the part of `a` outside `b`. -/
theorem C4_rect_subtract_correct (a b : Rect) :
    ((rect_intersect a b).w ≤ 0 ∨ (rect_intersect a b).h ≤ 0 →
      rect_subtract a b = [a]) ∧
    (rect_subtract a b).length ≤ 4 ∧
    (rect_subtract a b).Pairwise RDisj ∧
    (¬ ((rect_intersect a b).w ≤ 0 ∨ (rect_intersect a b).h ≤ 0) →
      ∀ r ∈ rect_subtract a b, 0 < r.w ∧ 0 < r.h) ∧
    (∀ px py, inList (rect_subtract a b) px py ↔
      inRect a px py ∧ ¬ inRect b px py) := by
  refine ⟨rect_subtract_of_degenerate a b, rect_subtract_length_le a b,
    rect_subtract_disjoint a b, ?_, rect_subtract_cover a b⟩
  intro hndeg
  push_neg at hndeg
  rcases intersect_inside a b with h | h
  · exact rect_subtract_pos a b (by omega)
  · omega

/-- Witness for C4 at concrete overlapping rectangles. -/
theorem C4_witness :
    ∀ r ∈ rect_subtract ⟨0, 0, 10, 10⟩ ⟨2, 2, 3, 3⟩, 0 < r.w ∧ 0 < r.h :=
  (C4_rect_subtract_correct ⟨0, 0, 10, 10⟩ ⟨2, 2, 3, 3⟩).2.2.2.1 (by decide)

/-- C5: entry clears the host running flag and creates no label
selection when the alphabet is invalid, or when multi-output mode is
active but no overlay surface carries a bound output; in all other cases
the running flag is left unchanged. -/
theorem C5_fatal_stop (running all_outputs : Bool)
    (surfaces : List (Option Rect)) (symbolsValid : Bool) (area : Rect) :
    (symbolsValid = false →
      (tile_mode_enter running all_outputs surfaces symbolsValid area).running
          = false ∧
      (tile_mode_enter running all_outputs surfaces symbolsValid
        area).ms.labelSelection = none) ∧
    (symbolsValid = true → all_outputs = true → surfaces ≠ [] →
      surfaces.filterMap id = [] →
      (tile_mode_enter running all_outputs surfaces symbolsValid area).running
          = false ∧
      (tile_mode_enter running all_outputs surfaces symbolsValid
        area).ms.labelSelection = none) ∧
    (symbolsValid = true →
      ((all_outputs = true ∧ surfaces ≠ []) → surfaces.filterMap id ≠ []) →
      (tile_mode_enter running all_outputs surfaces symbolsValid area).running
          = running) := by
  refine ⟨?_, ?_, ?_⟩
  · intro hs
    subst hs
    rw [tile_mode_enter_invalid]
    exact ⟨rfl, rfl⟩
  · intro hs hao hne hempty
    subst hs
    subst hao
    rw [tile_mode_enter_no_output running surfaces area hne hempty]
    exact ⟨rfl, rfl⟩
  · intro hs hcond
    subst hs
    by_cases hmulti : all_outputs = true ∧ surfaces ≠ []
    · obtain ⟨hao, hne⟩ := hmulti
      subst hao
      rw [tile_mode_enter_multi running surfaces area hne (hcond ⟨rfl, hne⟩)]
    · rw [tile_mode_enter_flat running all_outputs surfaces area hmulti]

/-- Witness for C5: invalid alphabet stops the host; a flat-mode entry
leaves the running flag unchanged. -/
theorem C5_witness :
    ((tile_mode_enter true true [] false ⟨0, 0, 10, 10⟩).running = false ∧
     (tile_mode_enter true true [] false ⟨0, 0, 10, 10⟩).ms.labelSelection
        = none) ∧
    (tile_mode_enter true false [] true ⟨0, 0, 10, 10⟩).running = true :=
  ⟨(C5_fatal_stop true true [] false ⟨0, 0, 10, 10⟩).1 rfl,
   (C5_fatal_stop true false [] true ⟨0, 0, 10, 10⟩).2.2 rfl (by simp)⟩

/-- C8: a single 1000 × 1000 flat-grid entry yields at most 676 cells
(qualifying alphabets do not enter the sizing), the label service is
sized to exactly `rows * cols`, and every cell has area at least 1250. -/
theorem C8_single_output_sizing :
    (flatGrid ⟨0, 0, 1000, 1000⟩).sub_area_rows *
        (flatGrid ⟨0, 0, 1000, 1000⟩).sub_area_columns ≤ 676 ∧
    (tile_mode_enter true false [] true ⟨0, 0, 1000, 1000⟩).ms.labelSelection =
      some ((flatGrid ⟨0, 0, 1000, 1000⟩).sub_area_rows *
        (flatGrid ⟨0, 0, 1000, 1000⟩).sub_area_columns) ∧
    ∀ li ∈ List.range ((flatGrid ⟨0, 0, 1000, 1000⟩).sub_area_rows *
        (flatGrid ⟨0, 0, 1000, 1000⟩).sub_area_columns).toNat,
      1250 ≤ (idx_to_rect (flatGrid ⟨0, 0, 1000, 1000⟩) (li : Int) 0 0).w *
        (idx_to_rect (flatGrid ⟨0, 0, 1000, 1000⟩) (li : Int) 0 0).h := by
  refine ⟨by decide, by decide, by decide⟩

/-- C6: for every mode instance built by the exclusive-region path, the
label-offset ranges of the created regions are contiguous and
non-overlapping in creation order starting at 0, the capacity passed to
the label service equals the sum of all `num_labels`, and each region
satisfies `rows * cols = num_labels`. -/
theorem C6_label_ranges (running : Bool) (surfaces : List (Option Rect))
    (area : Rect) (hne : surfaces ≠ []) (hout : surfaces.filterMap id ≠ []) :
    ContigFrom 0 (tile_mode_enter running true surfaces true area).ms.regions ∧
    (tile_mode_enter running true surfaces true area).ms.labelSelection =
      some (sumLabels
        (tile_mode_enter running true surfaces true area).ms.regions) ∧
    ∀ r ∈ (tile_mode_enter running true surfaces true area).ms.regions,
      r.num_labels = r.rows * r.cols := by
  rw [tile_mode_enter_multi running surfaces area hne hout]
  refine ⟨(buildRegions_contig _ _ _).1, ?_, ?_⟩
  · have h := (buildRegions_contig (multiCellSize (surfaces.filterMap id)).1
      (multiCellSize (surfaces.filterMap id)).2 (surfaces.filterMap id)).2
    simp only [h]
  · intro r hr
    obtain ⟨-, -, -, -, -, -, -, -, -, -, -, -, hnum⟩ :=
      buildRegions_good _ _ (surfaces.filterMap id)
        (multiCellSize_ge_one _).1 (multiCellSize_ge_one _).2 r hr
    exact hnum

/-- Witness for C6 at a concrete single-output entry. -/
theorem C6_witness :
    ContigFrom 0
      (tile_mode_enter true true [some ⟨0, 0, 100, 100⟩] true
        ⟨0, 0, 100, 100⟩).ms.regions ∧
    (tile_mode_enter true true [some ⟨0, 0, 100, 100⟩] true
        ⟨0, 0, 100, 100⟩).ms.labelSelection =
      some (sumLabels (tile_mode_enter true true [some ⟨0, 0, 100, 100⟩] true
        ⟨0, 0, 100, 100⟩).ms.regions) ∧
    ∀ r ∈ (tile_mode_enter true true [some ⟨0, 0, 100, 100⟩] true
        ⟨0, 0, 100, 100⟩).ms.regions,
      r.num_labels = r.rows * r.cols :=
  C6_label_ranges true [some ⟨0, 0, 100, 100⟩] ⟨0, 0, 100, 100⟩
    (by simp) (by decide)

/-- C9 (implicit): every region created in multi-output mode has a
positive area, at least one row, column and label, and cells at least
one pixel wide and tall; in flat mode with a positive bounding area, the
row/column counts and the final cell dimensions are all at least one —
so no division or modulo by zero occurs in grid sizing. -/
theorem C9_positivity (running : Bool) (surfaces : List (Option Rect))
    (area area2 : Rect) (hne : surfaces ≠ []) (hout : surfaces.filterMap id ≠ [])
    (hw : 0 < area2.w) (hh : 0 < area2.h) :
    (∀ r ∈ (tile_mode_enter running true surfaces true area).ms.regions,
      0 < r.area.w ∧ 0 < r.area.h ∧ 1 ≤ r.rows ∧ 1 ≤ r.cols ∧
      1 ≤ r.cell_w ∧ 1 ≤ r.cell_h ∧ 1 ≤ r.num_labels) ∧
    (1 ≤ (tile_mode_enter running false surfaces true
        area2).ms.flat.sub_area_rows ∧
     1 ≤ (tile_mode_enter running false surfaces true
        area2).ms.flat.sub_area_columns ∧
     1 ≤ (tile_mode_enter running false surfaces true
        area2).ms.flat.sub_area_width ∧
     1 ≤ (tile_mode_enter running false surfaces true
        area2).ms.flat.sub_area_height) := by
  constructor
  · rw [tile_mode_enter_multi running surfaces area hne hout]
    intro r hr
    have hg := buildRegions_good _ _ (surfaces.filterMap id)
      (multiCellSize_ge_one _).1 (multiCellSize_ge_one _).2 r hr
    have hnum := GoodRegion.one_le_num r hg
    obtain ⟨h1, h2, h3, h4, h5, h6, -⟩ := hg
    exact ⟨h1, h2, h3, h4, h6, h5, hnum⟩
  · rw [tile_mode_enter_flat running false surfaces area2 (by simp)]
    obtain ⟨h1, h2, h3, h4, -⟩ := flatGrid_good area2 hw hh
    exact ⟨h1, h2, h4, h3⟩

/-- Witness for C9 at concrete inputs. -/
theorem C9_witness :
    (∀ r ∈ (tile_mode_enter true true [some ⟨0, 0, 100, 100⟩] true
        ⟨0, 0, 100, 100⟩).ms.regions,
      0 < r.area.w ∧ 0 < r.area.h ∧ 1 ≤ r.rows ∧ 1 ≤ r.cols ∧
      1 ≤ r.cell_w ∧ 1 ≤ r.cell_h ∧ 1 ≤ r.num_labels) ∧
    (1 ≤ (tile_mode_enter true false [some ⟨0, 0, 100, 100⟩] true
        ⟨0, 0, 30, 20⟩).ms.flat.sub_area_rows ∧
     1 ≤ (tile_mode_enter true false [some ⟨0, 0, 100, 100⟩] true
        ⟨0, 0, 30, 20⟩).ms.flat.sub_area_columns ∧
     1 ≤ (tile_mode_enter true false [some ⟨0, 0, 100, 100⟩] true
        ⟨0, 0, 30, 20⟩).ms.flat.sub_area_width ∧
     1 ≤ (tile_mode_enter true false [some ⟨0, 0, 100, 100⟩] true
        ⟨0, 0, 30, 20⟩).ms.flat.sub_area_height) :=
  C9_positivity true [some ⟨0, 0, 100, 100⟩] ⟨0, 0, 100, 100⟩ ⟨0, 0, 30, 20⟩
    (by simp) (by decide) (by decide) (by decide)

/-- C3: grid exactness — in every multi-output region,
`cell_h * rows + cell_h_off = area.h` and
`cell_w * cols + cell_w_off = area.w`, and summing the per-cell widths
of one row (resp. heights of one column) reconstructs the area width
(resp. height) exactly; likewise for the flat single-output grid. -/
theorem C3_grid_exactness (running : Bool) (surfaces : List (Option Rect))
    (area area2 : Rect) (hne : surfaces ≠ []) (hout : surfaces.filterMap id ≠ [])
    (hw : 0 < area2.w) (hh : 0 < area2.h) :
    (∀ r ∈ (tile_mode_enter running true surfaces true area).ms.regions,
      r.cell_h * r.rows + r.cell_h_off = r.area.h ∧
      r.cell_w * r.cols + r.cell_w_off = r.area.w ∧
      rowWidthSum r = r.area.w ∧ colHeightSum r = r.area.h) ∧
    ((tile_mode_enter running false surfaces true area2).ms.flat.sub_area_height *
        (tile_mode_enter running false surfaces true area2).ms.flat.sub_area_rows +
        (tile_mode_enter running false surfaces true
          area2).ms.flat.sub_area_height_off = area2.h ∧
     (tile_mode_enter running false surfaces true area2).ms.flat.sub_area_width *
        (tile_mode_enter running false surfaces true
          area2).ms.flat.sub_area_columns +
        (tile_mode_enter running false surfaces true
          area2).ms.flat.sub_area_width_off = area2.w ∧
     flatRowWidthSum (tile_mode_enter running false surfaces true area2).ms.flat
        = area2.w ∧
     flatColHeightSum (tile_mode_enter running false surfaces true area2).ms.flat
        = area2.h) := by
  constructor
  · rw [tile_mode_enter_multi running surfaces area hne hout]
    intro r hr
    have hg := buildRegions_good _ _ (surfaces.filterMap id)
      (multiCellSize_ge_one _).1 (multiCellSize_ge_one _).2 r hr
    refine ⟨?_, ?_, rowWidthSum_eq r hg, colHeightSum_eq r hg⟩
    · exact hg.2.2.2.2.2.2.2.2.2.2.1
    · exact hg.2.2.2.2.2.2.2.2.2.2.2.1
  · rw [tile_mode_enter_flat running false surfaces area2 (by simp)]
    have hgf := flatGrid_good area2 hw hh
    exact ⟨hgf.2.2.2.2.2.2.2.2.1, hgf.2.2.2.2.2.2.2.2.2,
      flatRowWidthSum_eq _ _ hgf, flatColHeightSum_eq _ _ hgf⟩

/-- Witness for C3 at concrete inputs. -/
theorem C3_witness :
    (∀ r ∈ (tile_mode_enter true true [some ⟨0, 0, 100, 100⟩] true
        ⟨0, 0, 100, 100⟩).ms.regions,
      r.cell_h * r.rows + r.cell_h_off = r.area.h ∧
      r.cell_w * r.cols + r.cell_w_off = r.area.w ∧
      rowWidthSum r = r.area.w ∧ colHeightSum r = r.area.h) ∧
    flatRowWidthSum (tile_mode_enter true false [some ⟨0, 0, 100, 100⟩] true
        ⟨0, 0, 1000, 1000⟩).ms.flat = 1000 :=
  ⟨(C3_grid_exactness true [some ⟨0, 0, 100, 100⟩] ⟨0, 0, 100, 100⟩
      ⟨0, 0, 1000, 1000⟩ (by simp) (by decide) (by decide) (by decide)).1,
   (C3_grid_exactness true [some ⟨0, 0, 100, 100⟩] ⟨0, 0, 100, 100⟩
      ⟨0, 0, 1000, 1000⟩ (by simp) (by decide) (by decide) (by decide)).2.2.2.1⟩

theorem buildOKAux_take (rest : List Rect) :
    ∀ done, buildOKAux done rest = true →
      ∀ j (hj : j < rest.length),
        passFoldOK (done ++ rest.take j) [rest.get ⟨j, hj⟩] = true := by
  induction rest with
  | nil =>
    intro done _ j hj
    simp at hj
  | cons o rest ih =>
    intro done hOK j hj
    rw [buildOKAux, Bool.and_eq_true] at hOK
    cases j with
    | zero => simpa using hOK.1
    | succ j =>
      have h := ih (done ++ [o]) hOK.2 j (Nat.lt_of_succ_lt_succ hj)
      simpa [List.append_assoc] using h

/-- C2 (amended): provided no ping-pong pass overflows the 64-entry
pending buffer (`buildOK`; otherwise the code silently drops fragments),
the produced region areas are pairwise disjoint, their union equals the
union of all output bounds, and each output's exclusive set holds
exactly the pixels of that output not covered by any earlier output in
surface-list order (first-seen-wins ownership). -/
theorem C2_partition (ch cw : Int) (outputs : List Rect)
    (hOK : buildOK outputs = true) :
    ((buildRegions ch cw outputs).regions.map TileRegion.area).Pairwise RDisj ∧
    (∀ px py, (∃ r ∈ (buildRegions ch cw outputs).regions, inRect r.area px py)
        ↔ inList outputs px py) ∧
    (∀ j (hj : j < outputs.length) (px py : Int),
      inList (passFold (outputs.take j) [outputs.get ⟨j, hj⟩]) px py ↔
        inRect (outputs.get ⟨j, hj⟩) px py ∧
          ∀ q ∈ outputs.take j, ¬ inRect q px py) := by
  refine ⟨(buildRegions_disjoint ch cw outputs).1, ?_, ?_⟩
  · intro px py
    constructor
    · rintro ⟨r, hr, hp⟩
      exact (buildRegions_disjoint ch cw outputs).2 r hr px py hp
    · exact buildRegions_covers ch cw outputs hOK px py
  · intro j hj px py
    have hOK' := buildOKAux_take outputs [] hOK j hj
    rw [List.nil_append] at hOK'
    rw [passFold_inList _ _ px py hOK', inList_singleton]

/-- Witness for C2 at two side-by-side outputs. -/
theorem C2_witness :
    buildOK [⟨0, 0, 100, 100⟩, ⟨100, 0, 100, 100⟩] = true ∧
    ((∃ r ∈ (buildRegions 25 50
        [⟨0, 0, 100, 100⟩, ⟨100, 0, 100, 100⟩]).regions,
      inRect r.area 150 50) ↔
        inList [⟨0, 0, 100, 100⟩, ⟨100, 0, 100, 100⟩] 150 50) :=
  ⟨by decide,
   (C2_partition 25 50 [⟨0, 0, 100, 100⟩, ⟨100, 0, 100, 100⟩]
      (by decide)).2.1 150 50⟩

/-- Twenty-two small outputs in a row followed by one large output: subtracting
the 22 holes fragments the large output's pending set past the 64-entry
budget, so fragments are silently dropped. -/
def overflowHoles : List Rect :=
  (List.range 22).map (fun (i : Nat) => ⟨4 * (i : Int) + 1, 1, 2, 2⟩)

/-- The large output of the overflow layout. -/
def overflowBig : Rect := ⟨0, 0, 93, 10⟩

/-- The overflow layout, holes first, large output last. -/
def overflowOutputs : List Rect := overflowHoles ++ [overflowBig]

/-- Counterexample to C2 as stated: at the overflow layout the pixel
`(1, 0)` lies in an output's bounds (and in no earlier output), yet no
produced region covers it — the union of regions is strictly smaller
than the union of output bounds. -/
theorem C2_counterexample :
    inList overflowOutputs 1 0 ∧
    ¬ (∃ r ∈ (buildRegions 25 50 overflowOutputs).regions,
        inRect r.area 1 0) := by
  constructor
  · decide
  · decide

/-- C7: the code does not fail loudly on fragment-bound overflow.  At
the overflow layout (all outputs non-degenerate), `buildOK` reports an
overflowed pass, yet the build completes normally and has silently
dropped coverage: pixel `(1, 0)` of the large output is claimed by no
earlier output and ends up in no region. -/
theorem C7_silent_truncation :
    buildOK overflowOutputs = false ∧
    (∀ q ∈ overflowOutputs, 0 < q.w ∧ 0 < q.h) ∧
    inRect overflowBig 1 0 ∧
    (∀ q ∈ overflowHoles, ¬ inRect q 1 0) ∧
    (∀ r ∈ (buildRegions 25 50 overflowOutputs).regions,
      ¬ inRect r.area 1 0) := by
  refine ⟨by decide, by decide, by decide, by decide, by decide⟩

/-- For contiguous regions the scan always succeeds on an in-range
index. -/
theorem resolveRect_isSome (rs : List TileRegion) (o g : Int)
    (hcontig : ContigFrom o rs) (hg0 : o ≤ g) (hg1 : g < o + sumLabels rs) :
    ∃ rect, resolveRect rs g = some rect := by
  induction rs generalizing o with
  | nil =>
    rw [show sumLabels [] = 0 from by simp [sumLabels]] at hg1
    omega
  | cons r rs ih =>
    obtain ⟨hoff, hrest⟩ := hcontig
    have hsum := sumLabels_cons r rs
    rw [resolveRect]
    by_cases hcase : g < r.label_offset + r.num_labels
    · rw [if_neg (by omega)]
      exact ⟨_, rfl⟩
    · rw [if_pos (by omega)]
      exact ih (o + r.num_labels) hrest (by omega) (by omega)

/-- C1: label bijection (round trip).  In a multi-output instance, every
global index below the label-service capacity resolves (key handler
scan) to exactly the rectangle the forward column-major rendering
traversal enumerates at that position, and distinct indices resolve to
distinct rectangles; in a flat instance, the forward traversal rectangle
at any in-range index is `idx_to_rect` at that index (the key handler's
reverse mapping), and distinct indices give distinct rectangles. -/
theorem C1_label_bijection :
    (∀ (running : Bool) (surfaces : List (Option Rect)) (area : Rect)
        (total g g' : Int),
      surfaces ≠ [] → surfaces.filterMap id ≠ [] →
      (tile_mode_enter running true surfaces true area).ms.labelSelection =
        some total →
      0 ≤ g → g < total → 0 ≤ g' → g' < total → g ≠ g' →
      resolveRect
          (tile_mode_enter running true surfaces true area).ms.regions g =
        (renderRects
          (tile_mode_enter running true surfaces true area).ms.regions)[g.toNat]?
        ∧
      resolveRect
          (tile_mode_enter running true surfaces true area).ms.regions g ≠
        resolveRect
          (tile_mode_enter running true surfaces true area).ms.regions g') ∧
    (∀ (running : Bool) (surfaces : List (Option Rect)) (area : Rect)
        (g g' : Int),
      0 < area.w → 0 < area.h → 0 ≤ g →
      g < (tile_mode_enter running false surfaces true
            area).ms.flat.sub_area_rows *
          (tile_mode_enter running false surfaces true
            area).ms.flat.sub_area_columns →
      0 ≤ g' →
      g' < (tile_mode_enter running false surfaces true
            area).ms.flat.sub_area_rows *
          (tile_mode_enter running false surfaces true
            area).ms.flat.sub_area_columns →
      g ≠ g' →
      (renderRectsFlat (tile_mode_enter running false surfaces true area).ms.flat
          area
          (((tile_mode_enter running false surfaces true
              area).ms.flat.sub_area_rows *
            (tile_mode_enter running false surfaces true
              area).ms.flat.sub_area_columns).toNat))[g.toNat]? =
        some (idx_to_rect
          (tile_mode_enter running false surfaces true area).ms.flat g
          area.x area.y) ∧
      idx_to_rect (tile_mode_enter running false surfaces true area).ms.flat g
          area.x area.y ≠
        idx_to_rect (tile_mode_enter running false surfaces true area).ms.flat g'
          area.x area.y) := by
  constructor
  · intro running surfaces area total g g' hne hout hsel hg0 hg1 hg0' hg1' hgg
    rw [tile_mode_enter_multi running surfaces area hne hout] at hsel ⊢
    dsimp only at hsel ⊢
    have htot : (buildRegions (multiCellSize (surfaces.filterMap id)).1
        (multiCellSize (surfaces.filterMap id)).2
        (surfaces.filterMap id)).label_offset = total := by
      simpa using hsel
    have hcontig := (buildRegions_contig (multiCellSize (surfaces.filterMap id)).1
      (multiCellSize (surfaces.filterMap id)).2 (surfaces.filterMap id)).1
    have hoffsum := (buildRegions_contig (multiCellSize (surfaces.filterMap id)).1
      (multiCellSize (surfaces.filterMap id)).2 (surfaces.filterMap id)).2
    have hgood := buildRegions_good (multiCellSize (surfaces.filterMap id)).1
      (multiCellSize (surfaces.filterMap id)).2 (surfaces.filterMap id)
      (multiCellSize_ge_one _).1 (multiCellSize_ge_one _).2
    have hpw := (buildRegions_disjoint (multiCellSize (surfaces.filterMap id)).1
      (multiCellSize (surfaces.filterMap id)).2 (surfaces.filterMap id)).1
    have hpos : ∀ r ∈ (buildRegions (multiCellSize (surfaces.filterMap id)).1
        (multiCellSize (surfaces.filterMap id)).2
        (surfaces.filterMap id)).regions, 1 ≤ r.num_labels :=
      fun r hr => GoodRegion.one_le_num r (hgood r hr)
    have htotal : total = sumLabels (buildRegions
        (multiCellSize (surfaces.filterMap id)).1
        (multiCellSize (surfaces.filterMap id)).2
        (surfaces.filterMap id)).regions := by
      rw [← htot, hoffsum]
    have hrt := resolveRect_eq_get _ 0 g hcontig hpos (by omega)
      (by rw [zero_add, ← htotal]; omega)
    obtain ⟨rect, hrect⟩ := resolveRect_isSome _ 0 g hcontig (by omega)
      (by rw [zero_add, ← htotal]; omega)
    obtain ⟨rect', hrect'⟩ := resolveRect_isSome _ 0 g' hcontig (by omega)
      (by rw [zero_add, ← htotal]; omega)
    have hinj := resolveRect_inj _ g g' rect rect' hgood hpw hgg hrect hrect'
    constructor
    · simpa using hrt
    · rw [hrect, hrect']
      simpa using hinj
  · intro running surfaces area g g' hw hh hg0 hg1 hg0' hg1' hgg
    rw [tile_mode_enter_flat running false surfaces area (by simp)] at hg1 hg1' ⊢
    dsimp only at hg1 hg1' ⊢
    have hgf := flatGrid_good area hw hh
    constructor
    · rw [renderRectsFlat, List.getElem?_map, List.getElem?_range (by omega)]
      simp only [Option.map_some']
      rw [show ((g.toNat : Nat) : Int) = g from by omega]
    · exact idx_to_rect_inj _ area hgf g g' area.x area.y hgg

/-- Witness for C1 at a concrete one-output instance (8 labels) and a
concrete flat instance. -/
theorem C1_witness :
    resolveRect (tile_mode_enter true true [some ⟨0, 0, 100, 100⟩] true
        ⟨0, 0, 100, 100⟩).ms.regions 0 ≠
      resolveRect (tile_mode_enter true true [some ⟨0, 0, 100, 100⟩] true
        ⟨0, 0, 100, 100⟩).ms.regions 1 ∧
    idx_to_rect (tile_mode_enter true false [some ⟨0, 0, 100, 100⟩] true
        ⟨0, 0, 100, 100⟩).ms.flat 0 0 0 ≠
      idx_to_rect (tile_mode_enter true false [some ⟨0, 0, 100, 100⟩] true
        ⟨0, 0, 100, 100⟩).ms.flat 1 0 0 :=
  ⟨(C1_label_bijection.1 true [some ⟨0, 0, 100, 100⟩] ⟨0, 0, 100, 100⟩ 8 0 1
      (by simp) (by decide) (by decide) (by decide) (by decide) (by decide)
      (by decide) (by decide)).2,
   (C1_label_bijection.2 true [some ⟨0, 0, 100, 100⟩] ⟨0, 0, 100, 100⟩ 0 1
      (by decide) (by decide) (by decide) (by decide) (by decide) (by decide)
      (by decide)).2⟩

/-- C10 (implicit): a resolved label rectangle is contained within the
area of the region whose label range contains the index, and in flat
mode every in-range cell rectangle is contained within the overall
bounding area. -/
theorem C10_containment (running : Bool) (surfaces : List (Option Rect))
    (area area2 : Rect) (hne : surfaces ≠ []) (hout : surfaces.filterMap id ≠ [])
    (hw : 0 < area2.w) (hh : 0 < area2.h) :
    (∀ (g : Int) (rect : Rect),
      resolveRect (tile_mode_enter running true surfaces true area).ms.regions g
          = some rect →
      ∃ r ∈ (tile_mode_enter running true surfaces true area).ms.regions,
        r.label_offset ≤ g ∧ g < r.label_offset + r.num_labels ∧
        ∀ px py, inRect rect px py → inRect r.area px py) ∧
    (∀ idx : Int, 0 ≤ idx →
      idx < (tile_mode_enter running false surfaces true
          area2).ms.flat.sub_area_rows *
        (tile_mode_enter running false surfaces true
          area2).ms.flat.sub_area_columns →
      ∀ px py,
        inRect (idx_to_rect (tile_mode_enter running false surfaces true
          area2).ms.flat idx area2.x area2.y) px py →
        inRect area2 px py) := by
  constructor
  · rw [tile_mode_enter_multi running surfaces area hne hout]
    dsimp only
    intro g rect hres
    obtain ⟨r, hr, h1, h2, -, hsub, -, -⟩ := resolveRect_sound _ g rect
      (buildRegions_good _ _ _ (multiCellSize_ge_one _).1
        (multiCellSize_ge_one _).2) hres
    exact ⟨r, hr, h1, h2, hsub⟩
  · rw [tile_mode_enter_flat running false surfaces area2 (by simp)]
    dsimp only
    intro idx h0 h1 px py hp
    exact idx_to_rect_inside _ area2 (flatGrid_good area2 hw hh) idx h0 h1
      px py hp

/-- Witness for C10: label 0 of the one-output instance resolves to the
top-left 50 × 25 cell, contained in its region; flat cell 0 of a
100 × 100 area is contained in the area. -/
theorem C10_witness :
    (∃ r ∈ (tile_mode_enter true true [some ⟨0, 0, 100, 100⟩] true
        ⟨0, 0, 100, 100⟩).ms.regions,
      r.label_offset ≤ 0 ∧ 0 < r.label_offset + r.num_labels ∧
      ∀ px py, inRect ⟨0, 0, 50, 25⟩ px py → inRect r.area px py) ∧
    (∀ px py,
      inRect (idx_to_rect (tile_mode_enter true false [some ⟨0, 0, 100, 100⟩]
        true ⟨0, 0, 100, 100⟩).ms.flat 0 0 0) px py →
      inRect ⟨0, 0, 100, 100⟩ px py) :=
  ⟨(C10_containment true [some ⟨0, 0, 100, 100⟩] ⟨0, 0, 100, 100⟩
      ⟨0, 0, 100, 100⟩ (by simp) (by decide) (by decide) (by decide)).1
      0 ⟨0, 0, 50, 25⟩ (by decide),
   (C10_containment true [some ⟨0, 0, 100, 100⟩] ⟨0, 0, 100, 100⟩
      ⟨0, 0, 100, 100⟩ (by simp) (by decide) (by decide) (by decide)).2
      0 (by decide) (by decide)⟩

end WlKbptr
